import Mathlib

/-!
Verification of the rawhttp raw HTTP/1.1 client library.

Byte buffers are modelled as `List Char` (one `Char` per Go byte; all data in
scope is ASCII).  Go's `bytes` package primitives (`Split`, `Join`,
`ReplaceAll`, `Index`, `Contains`, `TrimSpace`) are embedded as structurally
recursive Lean functions; the recursions that consume a separator in one step
use an explicit fuel argument bounded by the input length so that every
definition evaluates by kernel reduction.
-/

set_option autoImplicit false

namespace Rawhttp

abbrev Bytes := List Char

def crlf : Bytes := ['\r', '\n']

def crlf2 : Bytes := ['\r', '\n', '\r', '\n']

/-- `bytes.Split(s, sep)` (fuelled worker; call sites use non-empty `sep`). -/
def splitOnSeqF (sep : Bytes) : Nat → Bytes → List Bytes
  | _, [] => [[]]
  | 0, l => [l]
  | fuel + 1, c :: rest =>
    if sep ≠ [] ∧ sep.isPrefixOf (c :: rest) then
      [] :: splitOnSeqF sep fuel (rest.drop (sep.length - 1))
    else
      match splitOnSeqF sep fuel rest with
      | [] => [[c]]
      | p :: ps => (c :: p) :: ps

/-- `bytes.Split(s, sep)`: leftmost non-overlapping split. -/
def splitOnSeq (sep l : Bytes) : List Bytes := splitOnSeqF sep l.length l

/-- `bytes.Index(l, sep)`. -/
def indexOfSeq (sep : Bytes) : Bytes → Option Nat
  | [] => if sep = [] then some 0 else none
  | c :: rest =>
    if sep.isPrefixOf (c :: rest) then some 0
    else (indexOfSeq sep rest).map (· + 1)

/-- `bytes.Contains(l, sep)`. -/
def containsSeq (sep l : Bytes) : Bool := (indexOfSeq sep l).isSome

/-- `bytes.ReplaceAll(s, old, new)` (fuelled worker for non-empty `old`). -/
def replaceAllF (old new : Bytes) : Nat → Bytes → Bytes
  | _, [] => []
  | 0, s => s
  | fuel + 1, c :: rest =>
    if old ≠ [] ∧ old.isPrefixOf (c :: rest) then
      new ++ replaceAllF old new fuel (rest.drop (old.length - 1))
    else
      c :: replaceAllF old new fuel rest

/-- `bytes.ReplaceAll(s, old, new)`; for empty `old`, Go inserts `new`
before every byte and at the end. -/
def replaceAll (s old new : Bytes) : Bytes :=
  if old = [] then new ++ s.flatMap (fun c => c :: new)
  else replaceAllF old new s.length s

/-- `bytes.Join(pieces, sep)`. -/
def joinSep (sep : Bytes) : List Bytes → Bytes
  | [] => []
  | [x] => x
  | x :: y :: rest => x ++ sep ++ joinSep sep (y :: rest)

/-- The ASCII fragment of Go's `unicode.IsSpace` plus the Latin-1 and
Unicode space code points Go also trims. -/
def isSpaceB (c : Char) : Bool :=
  c == ' ' || c == '\t' || c == '\n' || c == '\x0B' || c == '\x0C' || c == '\r' ||
  c == '\u0085' || c == '\u00A0' || c == '\u1680' ||
  ('\u2000' ≤ c && c ≤ '\u200A') ||
  c == '\u2028' || c == '\u2029' || c == '\u202F' || c == '\u205F' || c == '\u3000'

/-- `bytes.TrimSpace`. -/
def trimSpace (l : Bytes) : Bytes :=
  ((l.dropWhile isSpaceB).reverse.dropWhile isSpaceB).reverse

/-- ASCII lowering, the fragment of `strings.ToLower` exercised here. -/
def lowerChar (c : Char) : Char :=
  if 'A' ≤ c ∧ c ≤ 'Z' then Char.ofNat (c.toNat + 32) else c

def toLowerL (l : Bytes) : Bytes := l.map lowerChar

def digitChar : Nat → Char
  | 0 => '0' | 1 => '1' | 2 => '2' | 3 => '3' | 4 => '4'
  | 5 => '5' | 6 => '6' | 7 => '7' | 8 => '8' | _ => '9'

/-- `fmt.Sprintf("%d", n)` for a non-negative value (fuelled worker). -/
def natDecF : Nat → Nat → Bytes
  | 0, n => [digitChar (n % 10)]
  | fuel + 1, n =>
    if n < 10 then [digitChar n]
    else natDecF fuel (n / 10) ++ [digitChar (n % 10)]

/-- Decimal rendering of a natural number, as `fmt.Sprintf("%d", n)`. -/
def natDec (n : Nat) : Bytes := natDecF n n

def digitVal (c : Char) : Nat :=
  if c = '0' then 0 else if c = '1' then 1 else if c = '2' then 2
  else if c = '3' then 3 else if c = '4' then 4 else if c = '5' then 5
  else if c = '6' then 6 else if c = '7' then 7 else if c = '8' then 8 else 9

def decVal (l : Bytes) : Nat := l.foldl (fun a c => a * 10 + digitVal c) 0

/-! ### Evaluation lemmas for the fuelled primitives -/

theorem splitOnSeqF_fuel (sep : Bytes) (fuel : Nat) :
    ∀ l : Bytes, l.length ≤ fuel → splitOnSeqF sep fuel l = splitOnSeqF sep l.length l := by
  induction fuel using Nat.strong_induction_on with
  | _ fuel ih =>
    intro l hl
    cases l with
    | nil => cases fuel <;> rfl
    | cons c rest =>
      cases fuel with
      | zero => simp at hl
      | succ f =>
        have hrest : rest.length ≤ f := by
          simp only [List.length_cons] at hl; omega
        simp only [splitOnSeqF]
        by_cases h : sep ≠ [] ∧ sep.isPrefixOf (c :: rest)
        · rw [if_pos h, if_pos h]
          have hd2 : (rest.drop (sep.length - 1)).length ≤ rest.length := by
            simp only [List.length_drop]; omega
          rw [ih f (by omega) _ (le_trans hd2 hrest),
              ih rest.length (by omega) _ hd2]
        · rw [if_neg h, if_neg h]
          rw [ih f (by omega) rest hrest, ih rest.length (by omega) rest (le_refl _)]

theorem splitOnSeq_nil (sep : Bytes) : splitOnSeq sep [] = [[]] := rfl

theorem splitOnSeq_cons_pos (sep : Bytes) (c : Char) (rest : Bytes)
    (h : sep ≠ [] ∧ sep.isPrefixOf (c :: rest)) :
    splitOnSeq sep (c :: rest) = [] :: splitOnSeq sep (rest.drop (sep.length - 1)) := by
  unfold splitOnSeq
  simp only [List.length_cons, splitOnSeqF]
  rw [if_pos h,
    splitOnSeqF_fuel sep rest.length _ (by simp only [List.length_drop]; omega)]

theorem splitOnSeq_cons_neg (sep : Bytes) (c : Char) (rest : Bytes)
    (h : ¬ (sep ≠ [] ∧ sep.isPrefixOf (c :: rest))) :
    splitOnSeq sep (c :: rest) =
      match splitOnSeq sep rest with
      | [] => [[c]]
      | p :: ps => (c :: p) :: ps := by
  unfold splitOnSeq
  simp only [List.length_cons, splitOnSeqF]
  rw [if_neg h]

theorem replaceAllF_fuel (old new : Bytes) (fuel : Nat) :
    ∀ l : Bytes, l.length ≤ fuel → replaceAllF old new fuel l = replaceAllF old new l.length l := by
  induction fuel using Nat.strong_induction_on with
  | _ fuel ih =>
    intro l hl
    cases l with
    | nil => cases fuel <;> rfl
    | cons c rest =>
      cases fuel with
      | zero => simp at hl
      | succ f =>
        have hrest : rest.length ≤ f := by
          simp only [List.length_cons] at hl; omega
        simp only [replaceAllF]
        by_cases h : old ≠ [] ∧ old.isPrefixOf (c :: rest)
        · rw [if_pos h, if_pos h]
          have hd2 : (rest.drop (old.length - 1)).length ≤ rest.length := by
            simp only [List.length_drop]; omega
          rw [ih f (by omega) _ (le_trans hd2 hrest),
              ih rest.length (by omega) _ hd2]
        · rw [if_neg h, if_neg h]
          rw [ih f (by omega) rest hrest, ih rest.length (by omega) rest (le_refl _)]

theorem replaceAll_nil (old new : Bytes) (h : old ≠ []) : replaceAll [] old new = [] := by
  unfold replaceAll
  rw [if_neg h]; rfl

theorem replaceAll_cons_pos (old new : Bytes) (c : Char) (rest : Bytes)
    (h : old ≠ []) (hp : old.isPrefixOf (c :: rest)) :
    replaceAll (c :: rest) old new = new ++ replaceAll (rest.drop (old.length - 1)) old new := by
  unfold replaceAll
  rw [if_neg h, if_neg h]
  simp only [List.length_cons, replaceAllF]
  rw [if_pos (And.intro h hp),
    replaceAllF_fuel old new rest.length _ (by simp only [List.length_drop]; omega)]

theorem replaceAll_cons_neg (old new : Bytes) (c : Char) (rest : Bytes)
    (h : old ≠ []) (hp : ¬ old.isPrefixOf (c :: rest)) :
    replaceAll (c :: rest) old new = c :: replaceAll rest old new := by
  unfold replaceAll
  rw [if_neg h, if_neg h]
  simp only [List.length_cons, replaceAllF]
  rw [if_neg (by intro hc; exact hp hc.2)]

theorem natDecF_fuel (fuel : Nat) :
    ∀ n : Nat, n ≤ fuel → natDecF fuel n = natDecF n n := by
  induction fuel using Nat.strong_induction_on with
  | _ fuel ih =>
    intro n hn
    cases fuel with
    | zero =>
      interval_cases n
      rfl
    | succ f =>
      by_cases h : n < 10
      · cases n with
        | zero => rfl
        | succ m => simp only [natDecF, if_pos h]
      · cases n with
        | zero => omega
        | succ m =>
          simp only [natDecF, if_neg h]
          have hdiv : (m + 1) / 10 ≤ m := Nat.lt_succ_iff.mp (Nat.div_lt_self (by omega) (by omega))
          rw [ih f (by omega) _ (by omega), ih m (by omega) _ hdiv]

theorem natDec_lt (n : Nat) (h : n < 10) : natDec n = [digitChar n] := by
  unfold natDec
  cases n with
  | zero => rfl
  | succ m => simp only [natDecF, if_pos h]

theorem natDec_ge (n : Nat) (h : 10 ≤ n) :
    natDec n = natDec (n / 10) ++ [digitChar (n % 10)] := by
  unfold natDec
  cases n with
  | zero => omega
  | succ m =>
    simp only [natDecF, if_neg (by omega : ¬ m + 1 < 10)]
    have hdiv : (m + 1) / 10 ≤ m := Nat.lt_succ_iff.mp (Nat.div_lt_self (by omega) (by omega))
    rw [natDecF_fuel m _ hdiv]

theorem digitVal_digitChar (k : Nat) (h : k < 10) : digitVal (digitChar k) = k := by
  interval_cases k <;> rfl

theorem digitChar_ne_underscore (k : Nat) : digitChar k ≠ '_' := by
  unfold digitChar
  split <;> decide

theorem decVal_natDec (n : Nat) : decVal (natDec n) = n := by
  induction n using Nat.strong_induction_on with
  | _ n ih =>
    by_cases h : n < 10
    · rw [natDec_lt n h]
      simp only [decVal, List.foldl_cons, List.foldl_nil, Nat.zero_mul, Nat.zero_add]
      exact digitVal_digitChar n h
    · rw [natDec_ge n (by omega)]
      simp only [decVal, List.foldl_append, List.foldl_cons, List.foldl_nil]
      have h1 : decVal (natDec (n / 10)) = n / 10 :=
        ih (n / 10) (Nat.div_lt_self (by omega) (by omega))
      simp only [decVal] at h1
      rw [h1, digitVal_digitChar (n % 10) (Nat.mod_lt n (by omega))]
      omega

theorem natDec_injective : Function.Injective natDec := by
  intro a b h
  have := congrArg decVal h
  rwa [decVal_natDec, decVal_natDec] at this

theorem natDec_no_underscore (n : Nat) : ('_' : Char) ∉ natDec n := by
  induction n using Nat.strong_induction_on with
  | _ n ih =>
    by_cases h : n < 10
    · rw [natDec_lt n h]
      simp only [List.mem_singleton]
      exact fun hc => digitChar_ne_underscore n hc.symm
    · rw [natDec_ge n (by omega)]
      simp only [List.mem_append, List.mem_singleton]
      rintro (hc | hc)
      · exact ih (n / 10) (Nat.div_lt_self (by omega) (by omega)) hc
      · exact digitChar_ne_underscore (n % 10) hc.symm

/-- A list that is underscore-free up to a first `'_'` factors uniquely. -/
theorem append_underscore_inj :
    ∀ (a b r₁ r₂ : Bytes), ('_' : Char) ∉ a → ('_' : Char) ∉ b →
      a ++ '_' :: r₁ = b ++ '_' :: r₂ → a = b ∧ r₁ = r₂ := by
  intro a
  induction a with
  | nil =>
    intro b r₁ r₂ _ hb hab
    cases b with
    | nil =>
      simp only [List.nil_append, List.cons.injEq] at hab
      exact ⟨rfl, hab.2⟩
    | cons d bs =>
      simp only [List.nil_append, List.cons_append, List.cons.injEq] at hab
      exact absurd (hab.1 ▸ List.mem_cons_self d bs) hb
  | cons c as ihc =>
    intro b r₁ r₂ ha hb hab
    cases b with
    | nil =>
      simp only [List.cons_append, List.nil_append, List.cons.injEq] at hab
      exact absurd (hab.1 ▸ List.mem_cons_self c as) ha
    | cons d bs =>
      simp only [List.cons_append, List.cons.injEq] at hab
      have ha' : ('_' : Char) ∉ as := fun hm => ha (List.mem_cons_of_mem _ hm)
      have hb' : ('_' : Char) ∉ bs := fun hm => hb (List.mem_cons_of_mem _ hm)
      obtain ⟨h1, h2⟩ := ihc bs r₁ r₂ ha' hb' hab.2
      exact ⟨by rw [hab.1, h1], h2⟩

theorem splitOnSeq_ne_nil (sep l : Bytes) : splitOnSeq sep l ≠ [] := by
  cases l with
  | nil => simp [splitOnSeq_nil]
  | cons c rest =>
    by_cases h : sep ≠ [] ∧ sep.isPrefixOf (c :: rest)
    · rw [splitOnSeq_cons_pos sep c rest h]
      simp
    · rw [splitOnSeq_cons_neg sep c rest h]
      cases hs : splitOnSeq sep rest <;> simp

theorem isPrefixOf_append_drop (sep l : Bytes) (h : sep.isPrefixOf l) :
    sep ++ l.drop sep.length = l := by
  obtain ⟨t, ht⟩ := List.isPrefixOf_iff_prefix.mp h
  rw [← ht, List.drop_left]

theorem joinSep_cons_head (sep p : Bytes) (c : Char) (ps : List Bytes) :
    joinSep sep ((c :: p) :: ps) = c :: joinSep sep (p :: ps) := by
  cases ps with
  | nil => rfl
  | cons q qs => simp only [joinSep, List.cons_append]

/-- Joining a split with the same separator restores the original buffer. -/
theorem joinSep_splitOnSeq (sep : Bytes) (hsep : sep ≠ []) :
    ∀ l : Bytes, joinSep sep (splitOnSeq sep l) = l := by
  intro l
  cases l with
  | nil => rfl
  | cons c rest =>
    by_cases h : sep ≠ [] ∧ sep.isPrefixOf (c :: rest)
    · rw [splitOnSeq_cons_pos sep c rest h]
      have hlen : (rest.drop (sep.length - 1)).length < (c :: rest).length := by
        simp only [List.length_drop, List.length_cons]; omega
      have hIH := joinSep_splitOnSeq sep hsep (rest.drop (sep.length - 1))
      cases hq : splitOnSeq sep (rest.drop (sep.length - 1)) with
      | nil => exact absurd hq (splitOnSeq_ne_nil sep _)
      | cons q qs =>
        rw [hq] at hIH
        show joinSep sep ([] :: q :: qs) = c :: rest
        simp only [joinSep, List.nil_append]
        rw [hIH]
        have hdrop : rest.drop (sep.length - 1) = (c :: rest).drop sep.length := by
          cases sep with
          | nil => exact absurd rfl h.1
          | cons s ss => simp [List.drop]
        rw [hdrop]
        exact isPrefixOf_append_drop sep (c :: rest) h.2
    · rw [splitOnSeq_cons_neg sep c rest h]
      have hIH := joinSep_splitOnSeq sep hsep rest
      cases hq : splitOnSeq sep rest with
      | nil => exact absurd hq (splitOnSeq_ne_nil sep _)
      | cons p ps =>
        rw [hq] at hIH
        show joinSep sep ((c :: p) :: ps) = c :: rest
        rw [joinSep_cons_head, hIH]
termination_by l => l.length
decreasing_by all_goals (simp only [List.length_drop, List.length_cons]; omega)

theorem splitOnSeq_singleton_left (c : Char) :
    ∀ (pre rest : Bytes), c ∉ pre →
      splitOnSeq [c] (pre ++ c :: rest) = pre :: splitOnSeq [c] rest := by
  intro pre
  induction pre with
  | nil =>
    intro rest _
    rw [List.nil_append,
      splitOnSeq_cons_pos [c] c rest ⟨by simp, by simp [List.isPrefixOf]⟩]
    simp
  | cons d pre ih =>
    intro rest hnp
    have hne : ¬ (([c] : Bytes) ≠ [] ∧ ([c] : Bytes).isPrefixOf (d :: (pre ++ c :: rest))) := by
      rintro ⟨_, hp⟩
      simp only [List.isPrefixOf, Bool.and_eq_true, beq_iff_eq] at hp
      exact hnp (hp.1 ▸ List.mem_cons_self d pre)
    rw [List.cons_append, splitOnSeq_cons_neg [c] d (pre ++ c :: rest) hne,
      ih rest (fun hm => hnp (List.mem_cons_of_mem d hm))]

theorem containsSeq_singleton (c : Char) (l : Bytes) :
    containsSeq [c] l = true ↔ c ∈ l := by
  induction l with
  | nil => simp [containsSeq, indexOfSeq]
  | cons a l ih =>
    by_cases h : (c = a)
    · subst h
      simp only [containsSeq, indexOfSeq,
        if_pos (by simp [List.isPrefixOf] : ([c] : Bytes).isPrefixOf (c :: l) = true)]
      simp
    · have hp : ¬ (([c] : Bytes).isPrefixOf (a :: l)) = true := by
        simp only [List.isPrefixOf, Bool.and_eq_true, beq_iff_eq]
        exact fun hh => h hh.1
      simp only [containsSeq, indexOfSeq, if_neg hp] at ih ⊢
      have hmap : (Option.map (fun x => x + 1) (indexOfSeq [c] l)).isSome
          = (indexOfSeq [c] l).isSome := by
        cases indexOfSeq [c] l <;> rfl
      rw [hmap, ih]
      simp [h]

/-! ### Request model (src/unnamed/part_001)

`Request` mirrors the Go struct field by field; the Go `map[string]HeaderLine`
is modelled as an association list with Go's insert-or-replace update, which
refines the map (it additionally remembers insertion order; `Bytes` places
entries by `pos`, so iteration order is irrelevant). -/

structure HeaderLine where
  key : Bytes
  value : Bytes
  pos : Nat
deriving Repr, DecidableEq

abbrev HeaderMap := List (Bytes × HeaderLine)

def mapContains (m : HeaderMap) (k : Bytes) : Bool := m.any (fun e => e.1 == k)

def mapInsert (m : HeaderMap) (k : Bytes) (v : HeaderLine) : HeaderMap :=
  if mapContains m k then m.map (fun e => if e.1 == k then (k, v) else e)
  else m ++ [(k, v)]

def mapFind (m : HeaderMap) (k : Bytes) : Option HeaderLine :=
  (m.find? (fun e => e.1 == k)).map (fun e => e.2)

/-- The fields of Go's `url.URL` the library reads, treated as opaque
inputs (URL parsing itself is `net/url`, outside this repository). -/
structure URI where
  scheme : Bytes
  hostname : Bytes
  port : Bytes
  path : Bytes
  escapedPath : Bytes
  requestURI : Bytes
  fragment : Bytes
deriving Repr, DecidableEq

def emptyURI : URI := ⟨[], [], [], [], [], [], []⟩

structure Request where
  rawdata : Bytes
  url : Bytes
  uri : URI
  ip : Bytes
  parsed : Bool
  httpLine : Bytes
  method : Bytes
  path : Bytes
  version : Bytes
  rawHeaders : Bytes
  body : Bytes
  headers : HeaderMap
deriving Repr, DecidableEq

/-- `&Request{Rawdata: raw}`: all other fields are Go zero values. -/
def mkRequest (raw : Bytes) : Request :=
  { rawdata := raw, url := [], uri := emptyURI, ip := [], parsed := false,
    httpLine := [], method := [], path := [], version := [], rawHeaders := [],
    body := [], headers := [] }

/-- `prepareBytes`: normalize CRLF to LF, then LF to CRLF
(the `req` parameter of the Go function is unused). -/
def prepareBytes (data : Bytes) : Bytes :=
  replaceAll (replaceAll data crlf ['\n']) ['\n'] crlf

/-- `trimSpaces`: trim every piece, drop the empty ones. -/
def trimSpaces (sl : List Bytes) : List Bytes :=
  (sl.map trimSpace).filter (fun v => !v.isEmpty)

/-- The header-line loop of `ParseRawdata`: for each line, split at the
first `:`; the lowercased key gets an `_<index>` suffix when already
present; the entry records the original key bytes, the trimmed value and
the line position. -/
def parseHeaderLines : List Bytes → Nat → HeaderMap → HeaderMap
  | [], _, m => m
  | line :: rest, i, m =>
    let linePieces := splitOnSeq [':'] line
    let k := linePieces.headI
    let v := if linePieces.length > 1 then trimSpace (joinSep [':'] linePieces.tail)
             else ([] : Bytes)
    let key0 := toLowerL k
    let key := if mapContains m key0 then key0 ++ '_' :: natDec i else key0
    parseHeaderLines rest (i + 1) (mapInsert m key ⟨k, v, i⟩)

/-- `Request.ParseRawdata`.  On the Go error path the receiver is left
partially mutated; no claim depends on that state, so the error carries
only the message. -/
def parseRawdata (r : Request) : Except Bytes Request :=
  if r.parsed then .ok r
  else
    let rd := if containsSeq crlf r.rawdata then r.rawdata else prepareBytes r.rawdata
    let pieces := splitOnSeq crlf2 rd
    let headerPart := splitOnSeq crlf pieces.headI
    let body := if pieces.length > 1 then joinSep crlf2 pieces.tail else r.body
    let httpLine := headerPart.headI
    let hlinePieces := trimSpaces (splitOnSeq [' '] httpLine)
    if hlinePieces.length ≠ 3 then
      .error (("invalid HTTP line: ").toList ++ httpLine)
    else
      .ok { r with
        rawdata := rd,
        body := body,
        httpLine := httpLine,
        method := hlinePieces.headI,
        path := hlinePieces.tail.headI,
        version := hlinePieces.tail.tail.headI,
        rawHeaders := joinSep crlf headerPart.tail,
        headers := parseHeaderLines headerPart.tail 0 [],
        parsed := true }

/-- `Request.SetMethod`. -/
def setMethod (r : Request) (m : Bytes) : Request := { r with method := m }

/-- `Request.SetBody`. -/
def setBody (r : Request) (b : Bytes) : Request := { r with body := b }

/-- `Request.SetHeader(key, name, value)`. -/
def setHeader (r : Request) (key name value : Bytes) : Request :=
  let hl := match mapFind r.headers key with
    | some hl0 => { hl0 with key := name, value := value }
    | none => { key := name, value := value, pos := r.headers.length : HeaderLine }
  { r with headers := mapInsert r.headers key hl }

/-- `Request.AddQueryParams`. -/
def addQueryParams (path params : Bytes) : Bytes :=
  let fragmentPieces := splitOnSeq ['#'] path
  let sep := if containsSeq ['?'] fragmentPieces.headI then ['&'] else ['?']
  fragmentPieces.headI ++ sep ++ params ++
    (if fragmentPieces.length > 1 then joinSep ['#'] fragmentPieces.tail else [])

/-- The slot write `headerSlice[v.Pos] = line` of `Request.Bytes`;
`none` models the Go index-out-of-range panic. -/
def setSlot (slots : List (Option HeaderLine)) (p : Nat) (hl : HeaderLine) :
    Option (List (Option HeaderLine)) :=
  if p < slots.length then some (slots.set p (some hl)) else none

/-- The placement loop of `Request.Bytes` over the header map. -/
def fillSlots : HeaderMap → List (Option HeaderLine) → Option (List (Option HeaderLine))
  | [], slots => some slots
  | e :: rest, slots =>
    match setSlot slots e.2.pos e.2 with
    | none => none
    | some s => fillSlots rest s

/-- One emitted header line: `Key ++ ": " ++ Value`; a never-written slot
is a nil Go byte slice, which joins as an empty piece. -/
def headerLineBytes : Option HeaderLine → Bytes
  | none => []
  | some hl => hl.key ++ ':' :: ' ' :: hl.value

/-- `Request.Bytes`: request line, positioned headers, blank line, body.
`none` models the Go panic when some `pos` is out of range. -/
def requestBytes (r : Request) : Option Bytes :=
  (fillSlots r.headers (List.replicate r.headers.length none)).map (fun slots =>
    r.method ++ ' ' :: r.path ++ ' ' :: r.version ++ crlf
      ++ joinSep crlf (slots.map headerLineBytes) ++ crlf2 ++ r.body)

/-! ### Statement-level views of the parse for claim C1 -/

/-- The header lines of a raw buffer, exactly as `ParseRawdata` cuts them. -/
def headerLinesOf (raw : Bytes) : List Bytes :=
  let rd := if containsSeq crlf raw then raw else prepareBytes raw
  (splitOnSeq crlf (splitOnSeq crlf2 rd).headI).tail

/-- The original (pre-colon) key bytes of a header line. -/
def keyOf (line : Bytes) : Bytes := (splitOnSeq [':'] line).headI

/-- The parsed value of a header line. -/
def valueOf (line : Bytes) : Bytes :=
  let linePieces := splitOnSeq [':'] line
  if linePieces.length > 1 then trimSpace (joinSep [':'] linePieces.tail) else []

/-- The header names of a raw request buffer, in line order. -/
def headerNamesOf (raw : Bytes) : List Bytes := (headerLinesOf raw).map keyOf

/-- The header-name column of the `Bytes` emission, in emission order;
`none` when `Bytes` panics. -/
def emittedHeaderKeys (r : Request) : Option (List Bytes) :=
  (fillSlots r.headers (List.replicate r.headers.length none)).map
    (fun slots => slots.map (fun s => match s with | none => [] | some hl => hl.key))

/-- The full header-line block of the `Bytes` emission (each line is
`Key ++ ": " ++ Value`), in emission order; `none` when `Bytes` panics. -/
def emittedHeaderLines (r : Request) : Option (List Bytes) :=
  (fillSlots r.headers (List.replicate r.headers.length none)).map
    (fun slots => slots.map headerLineBytes)

/-- The entries `ParseRawdata` is expected to produce for a line list,
starting at position `i`. -/
def headerEntriesSpec (i : Nat) : List Bytes → List HeaderLine
  | [] => []
  | line :: rest => ⟨keyOf line, valueOf line, i⟩ :: headerEntriesSpec (i + 1) rest

/-! ### C1: header preservation through parse and re-serialization -/

/-- Shape invariant for keys of the header map at loop index `i`: a key is
either an underscore-free lowercased name or a suffixed duplicate built at
an earlier index. -/
def goodKey (i : Nat) (k : Bytes) : Prop :=
  (('_' : Char) ∉ k) ∨ ∃ s j, (('_' : Char) ∉ s) ∧ j < i ∧ k = s ++ '_' :: natDec j

theorem goodKey_mono (i : Nat) (k : Bytes) (h : goodKey i k) : goodKey (i + 1) k := by
  rcases h with h | ⟨s, j, hs, hj, hk⟩
  · exact Or.inl h
  · exact Or.inr ⟨s, j, hs, by omega, hk⟩

theorem mapContains_iff (m : HeaderMap) (k : Bytes) :
    mapContains m k = true ↔ ∃ e ∈ m, e.1 = k := by
  unfold mapContains
  rw [List.any_eq_true]
  constructor
  · rintro ⟨e, hm, he⟩
    exact ⟨e, hm, beq_iff_eq.mp he⟩
  · rintro ⟨e, hm, he⟩
    exact ⟨e, hm, beq_iff_eq.mpr he⟩

theorem mapInsert_fresh (m : HeaderMap) (k : Bytes) (v : HeaderLine)
    (h : mapContains m k = false) : mapInsert m k v = m ++ [(k, v)] := by
  simp [mapInsert, h]

theorem parseHeaderLines_spec :
    ∀ (lines : List Bytes) (i : Nat) (m : HeaderMap),
      (∀ line ∈ lines, ('_' : Char) ∉ toLowerL (keyOf line)) →
      (∀ e ∈ m, goodKey i e.1) →
      (parseHeaderLines lines i m).map (fun e => e.2)
        = m.map (fun e => e.2) ++ headerEntriesSpec i lines := by
  intro lines
  induction lines with
  | nil =>
    intro i m _ _
    simp [parseHeaderLines, headerEntriesSpec]
  | cons line rest ih =>
    intro i m hlines hgood
    have hline : ('_' : Char) ∉ toLowerL (keyOf line) :=
      hlines line (List.mem_cons_self line rest)
    have hrest : ∀ l ∈ rest, ('_' : Char) ∉ toLowerL (keyOf l) :=
      fun l hl => hlines l (List.mem_cons_of_mem line hl)
    show (parseHeaderLines (line :: rest) i m).map (fun e => e.2) = _
    rw [parseHeaderLines]
    by_cases hc : mapContains m (toLowerL (keyOf line)) = true
    · have hfresh : mapContains m (toLowerL (keyOf line) ++ '_' :: natDec i) = false := by
        by_contra hcc
        have hcc' : mapContains m (toLowerL (keyOf line) ++ '_' :: natDec i) = true := by
          revert hcc
          cases mapContains m (toLowerL (keyOf line) ++ '_' :: natDec i) <;> simp
        obtain ⟨e, hem, hek⟩ := (mapContains_iff _ _).mp hcc'
        rcases hgood e hem with hfree | ⟨s, j, hs, hj, hk⟩
        · apply hfree
          rw [hek]
          exact List.mem_append_right _ (List.mem_cons_self _ _)
        · rw [hek] at hk
          obtain ⟨-, hdec⟩ :=
            append_underscore_inj s (toLowerL (keyOf line)) (natDec j) (natDec i) hs hline hk.symm
          exact absurd (natDec_injective hdec) (by omega)
      simp only [keyOf] at hc hfresh
      simp only [hc, if_true, mapInsert_fresh m _ _ hfresh]
      rw [ih (i + 1) _ hrest (by
        intro e he
        rcases List.mem_append.mp he with he | he
        · exact goodKey_mono i e.1 (hgood e he)
        · rcases List.mem_singleton.mp he with rfl
          exact Or.inr ⟨toLowerL (keyOf line), i, (by simpa [keyOf] using hline), by omega, rfl⟩)]
      simp [headerEntriesSpec, keyOf, valueOf]
    · have hc' : mapContains m (toLowerL (keyOf line)) = false := by
        revert hc
        cases mapContains m (toLowerL (keyOf line)) <;> simp
      simp only [keyOf] at hc'
      simp only [hc', if_false, Bool.false_eq_true, mapInsert_fresh m _ _ hc']
      rw [ih (i + 1) _ hrest (by
        intro e he
        rcases List.mem_append.mp he with he | he
        · exact goodKey_mono i e.1 (hgood e he)
        · rcases List.mem_singleton.mp he with rfl
          exact Or.inl (by simpa [keyOf] using hline))]
      simp [headerEntriesSpec, keyOf, valueOf]

theorem set_append_length {α : Type} (xs ys : List α) (v : α) :
    (xs ++ ys).set xs.length v = xs ++ ys.set 0 v := by
  induction xs with
  | nil => rfl
  | cons a xs ih => simp [List.set, ih]

theorem fillSlots_spec :
    ∀ (entries : HeaderMap) (done : List (Option HeaderLine)) (k : Nat),
      entries.map (fun e => e.2.pos) = List.range' done.length entries.length →
      entries.length ≤ k →
      fillSlots entries (done ++ List.replicate k none)
        = some (done ++ entries.map (fun e => some e.2)
            ++ List.replicate (k - entries.length) none) := by
  intro entries
  induction entries with
  | nil =>
    intro done k _ _
    simp [fillSlots]
  | cons e rest ih =>
    intro done k hpos hk
    simp only [List.length_cons, List.range'_succ, List.map_cons, List.cons.injEq] at hpos
    obtain ⟨hpe, hrest⟩ := hpos
    have hk1 : 1 ≤ k := by simp at hk; omega
    have hsl : (done ++ List.replicate k (none : Option HeaderLine)).length
        = done.length + k := by simp
    rw [fillSlots]
    unfold setSlot
    rw [if_pos (by rw [hsl]; omega), hpe, set_append_length]
    have hrepl : List.replicate k (none : Option HeaderLine)
        = none :: List.replicate (k - 1) none := by
      cases k with
      | zero => omega
      | succ k0 => simp [List.replicate_succ]
    rw [hrepl]
    simp only [List.set_cons_zero]
    show fillSlots rest (done ++ some e.2 :: List.replicate (k - 1) none) = _
    rw [show done ++ some e.2 :: List.replicate (k - 1) (none : Option HeaderLine)
        = (done ++ [some e.2]) ++ List.replicate (k - 1) none by simp]
    rw [ih (done ++ [some e.2]) (k - 1)
      (by simpa using hrest) (by simp at hk; omega)]
    simp only [List.map_cons]
    have : k - 1 - rest.length = k - (rest.length + 1) := by omega
    rw [this]
    simp

theorem headerEntriesSpec_pos :
    ∀ (lines : List Bytes) (i : Nat),
      (headerEntriesSpec i lines).map (fun hl => hl.pos) = List.range' i lines.length := by
  intro lines
  induction lines with
  | nil => intro i; rfl
  | cons line rest ih =>
    intro i
    simp [headerEntriesSpec, List.range'_succ, ih]

theorem headerEntriesSpec_key :
    ∀ (lines : List Bytes) (i : Nat),
      (headerEntriesSpec i lines).map (fun hl => hl.key) = lines.map keyOf := by
  intro lines
  induction lines with
  | nil => intro i; rfl
  | cons line rest ih =>
    intro i
    simp [headerEntriesSpec, ih]

theorem headerEntriesSpec_lineBytes :
    ∀ (lines : List Bytes) (i : Nat),
      (headerEntriesSpec i lines).map (fun hl => hl.key ++ ':' :: ' ' :: hl.value)
        = lines.map (fun line => keyOf line ++ ':' :: ' ' :: valueOf line) := by
  intro lines
  induction lines with
  | nil => intro i; rfl
  | cons line rest ih =>
    intro i
    simp [headerEntriesSpec, ih]

theorem headerEntriesSpec_length (lines : List Bytes) (i : Nat) :
    (headerEntriesSpec i lines).length = lines.length := by
  have := congrArg List.length (headerEntriesSpec_key lines i)
  simpa using this

/-- C1 (amended): for buffers whose lowercased header names are
underscore-free, the `Bytes` emission carries every parsed header line in
parse order: the name column equals the parsed names, and each emitted
line is the line's own original key paired with its own parsed value. -/
theorem c1_header_preservation (raw : Bytes) (r : Request)
    (hp : parseRawdata (mkRequest raw) = .ok r)
    (hu : ∀ name ∈ headerNamesOf raw, ('_' : Char) ∉ toLowerL name) :
    emittedHeaderKeys r = some (headerNamesOf raw)
    ∧ emittedHeaderLines r
        = some ((headerLinesOf raw).map (fun line => keyOf line ++ ':' :: ' ' :: valueOf line))
    ∧ (requestBytes r).isSome = true := by
  have hu' : ∀ line ∈ headerLinesOf raw, ('_' : Char) ∉ toLowerL (keyOf line) := by
    intro line hl
    exact hu (keyOf line) (List.mem_map_of_mem keyOf hl)
  have hheaders : r.headers = parseHeaderLines (headerLinesOf raw) 0 [] := by
    simp only [parseRawdata, mkRequest] at hp
    split at hp
    next h => exact absurd h (by simp)
    next =>
      split at hp
      next hcond =>
        split at hp
        next => exact absurd hp (by simp)
        next =>
          simp only [Except.ok.injEq] at hp
          rw [← hp]
          simp [headerLinesOf, hcond]
      next hcond =>
        split at hp
        next => exact absurd hp (by simp)
        next =>
          simp only [Except.ok.injEq] at hp
          rw [← hp]
          simp [headerLinesOf, hcond]
  set entries := parseHeaderLines (headerLinesOf raw) 0 [] with hdefent
  have hentries : entries.map (fun e => e.2) = headerEntriesSpec 0 (headerLinesOf raw) := by
    have h := parseHeaderLines_spec (headerLinesOf raw) 0 [] hu' (by intro e he; cases he)
    simpa using h
  have hlen : entries.length = (headerLinesOf raw).length := by
    have h := congrArg List.length hentries
    simpa [headerEntriesSpec_length] using h
  have hpos : entries.map (fun e => e.2.pos) = List.range' 0 entries.length := by
    have h1 : entries.map (fun e => e.2.pos)
        = (entries.map (fun e => e.2)).map (fun hl => hl.pos) := by
      simp [List.map_map]
    rw [h1, hentries, headerEntriesSpec_pos, hlen]
  have hfill : fillSlots entries (List.replicate entries.length none)
      = some (entries.map (fun e => some e.2)) := by
    have h := fillSlots_spec entries [] entries.length (by simpa using hpos) (le_refl _)
    simpa using h
  refine ⟨?_, ?_, ?_⟩
  · simp only [emittedHeaderKeys, hheaders, hfill]
    simp only [Option.map_some', Option.some.injEq, List.map_map]
    have h2 : entries.map
        ((fun s => match s with | none => [] | some hl => hl.key) ∘ (fun e => some e.2))
        = (entries.map (fun e => e.2)).map (fun hl => hl.key) := by
      simp [List.map_map]
    rw [h2, hentries, headerEntriesSpec_key]
    rfl
  · simp only [emittedHeaderLines, hheaders, hfill]
    simp only [Option.map_some', Option.some.injEq, List.map_map]
    have h2 : entries.map (headerLineBytes ∘ (fun e => some e.2))
        = (entries.map (fun e => e.2)).map (fun hl => hl.key ++ ':' :: ' ' :: hl.value) := by
      simp [List.map_map, headerLineBytes]
    rw [h2, hentries, headerEntriesSpec_lineBytes]
  · simp only [requestBytes, hheaders, hfill]
    simp

theorem c1_header_preservation_witness :
    emittedHeaderKeys
        ((parseRawdata (mkRequest
            ("GET /a HTTP/1.1\r\nHost: h\r\nCookie: a=1\r\nCookie: b=2\r\n\r\n").toList)).toOption.getD
          (mkRequest []))
      = some (headerNamesOf
          ("GET /a HTTP/1.1\r\nHost: h\r\nCookie: a=1\r\nCookie: b=2\r\n\r\n").toList)
    ∧ emittedHeaderLines
        ((parseRawdata (mkRequest
            ("GET /a HTTP/1.1\r\nHost: h\r\nCookie: a=1\r\nCookie: b=2\r\n\r\n").toList)).toOption.getD
          (mkRequest []))
      = some [("Host: h").toList, ("Cookie: a=1").toList, ("Cookie: b=2").toList]
    ∧ (requestBytes
        ((parseRawdata (mkRequest
            ("GET /a HTTP/1.1\r\nHost: h\r\nCookie: a=1\r\nCookie: b=2\r\n\r\n").toList)).toOption.getD
          (mkRequest []))).isSome = true := by
  obtain ⟨h1, h2, h3⟩ := c1_header_preservation
    (("GET /a HTTP/1.1\r\nHost: h\r\nCookie: a=1\r\nCookie: b=2\r\n\r\n").toList)
    ((parseRawdata (mkRequest
        ("GET /a HTTP/1.1\r\nHost: h\r\nCookie: a=1\r\nCookie: b=2\r\n\r\n").toList)).toOption.getD
      (mkRequest []))
    (by rfl) (by decide)
  exact ⟨h1, by rw [h2]; decide, h3⟩

/-- C1 counterexample: this buffer parses successfully with three header
lines, yet the suffixed duplicate key `cookie_1_2` collides with the
pre-existing header named `Cookie_1_2`, one entry is overwritten and its
position `2` exceeds the map size `2`, so `Bytes()` hits an
out-of-range slot (a Go panic, modelled as `none`) instead of emitting
every header name. -/
theorem c1_header_preservation_counterexample :
    (parseRawdata (mkRequest
        ("GET / HTTP/1.1\r\nCookie_1_2: z\r\nCookie_1: a\r\nCookie_1: b\r\n\r\n").toList)).toOption.map
      requestBytes = some none
    ∧ (headerNamesOf
        ("GET / HTTP/1.1\r\nCookie_1_2: z\r\nCookie_1: a\r\nCookie_1: b\r\n\r\n").toList).length = 3 := by
  decide

/-! ### C6: AddQueryParams and fragments -/

/-- C6: splicing query params into a path that carries a fragment keeps the
pre-`#` part, picks `&` or `?` by whether that part already has a `?`, then
appends the params and the fragment text with its leading `#` removed. -/
theorem c6_add_query_params (pre rest params : Bytes) (hpre : ('#' : Char) ∉ pre) :
    addQueryParams (pre ++ '#' :: rest) params
      = pre ++ (if containsSeq ['?'] pre then ['&'] else ['?']) ++ params ++ rest := by
  unfold addQueryParams
  rw [splitOnSeq_singleton_left '#' pre rest hpre]
  have hne := splitOnSeq_ne_nil ['#'] rest
  cases hq : splitOnSeq ['#'] rest with
  | nil => exact absurd hq hne
  | cons q qs =>
    have hjoin : joinSep ['#'] (q :: qs) = rest := by
      rw [← hq]
      exact joinSep_splitOnSeq ['#'] (by simp) rest
    simp only [List.headI, List.tail_cons, List.length_cons]
    rw [if_pos (by omega : qs.length + 1 + 1 > 1), hjoin]

theorem c6_add_query_params_witness :
    addQueryParams ("/api#section").toList ("foo=bar").toList = ("/api?foo=barsection").toList
    ∧ ('#' : Char) ∉ ("/api").toList := by
  constructor
  · have h := c6_add_query_params ("/api").toList ("section").toList ("foo=bar").toList
      (by decide)
    rw [show ("/api#section").toList = ("/api").toList ++ '#' :: ("section").toList by rfl]
    rw [h]
    decide
  · decide

/-! ### C7: DoProxy tunnel split (src/client.go DoProxy) -/

/-- The buffer manipulation of `DoProxy`: split the raw request at
`CRLF CRLF`; fewer than two parts is `InvalidRequestError` (`none`);
otherwise the preface is the first part plus a `CRLF CRLF` terminator and
the inner request's raw bytes become the remaining parts joined with a
single `CRLF`. -/
def doProxySplit (rawdata : Bytes) : Option (Bytes × Bytes) :=
  match splitOnSeq crlf2 rawdata with
  | [] => none
  | p :: ps => if ps.isEmpty then none else some (p ++ crlf2, joinSep crlf ps)

/-- C7 (amended): the preface is the pre-split part plus `CRLF CRLF` and the
inner raw bytes are the remaining split parts rejoined with a single `CRLF`
(Go joins `parts[1:]` with `"\r\n"`, not `"\r\n\r\n"`), so embedded
`CRLF CRLF` sequences in the remainder collapse to `CRLF`; the remainder is
recovered exactly only when it contains no further `CRLF CRLF`. -/
theorem c7_tunnel_split (raw p : Bytes) (ps : List Bytes)
    (hsplit : splitOnSeq crlf2 raw = p :: ps) (hps : ps ≠ []) :
    raw = p ++ crlf2 ++ joinSep crlf2 ps
    ∧ doProxySplit raw = some (p ++ crlf2, joinSep crlf ps)
    ∧ (∀ rest : Bytes, ps = [rest] → joinSep crlf ps = rest) := by
  refine ⟨?_, ?_, ?_⟩
  · have hj := joinSep_splitOnSeq crlf2 (by simp [crlf2]) raw
    rw [hsplit] at hj
    cases ps with
    | nil => exact absurd rfl hps
    | cons q qs =>
      simp only [joinSep] at hj
      rw [← hj]
  · unfold doProxySplit
    rw [hsplit]
    simp [hps]
  · intro rest hrest
    subst hrest
    rfl

theorem c7_tunnel_split_witness :
    ("CONNECT h:443 HTTP/1.1\r\n\r\nGET / HTTP/1.1\r\nHost: h\r\n\r\n").toList
      = ("CONNECT h:443 HTTP/1.1").toList ++ crlf2
        ++ joinSep crlf2 [("GET / HTTP/1.1\r\nHost: h").toList, []]
    ∧ doProxySplit ("CONNECT h:443 HTTP/1.1\r\n\r\nGET / HTTP/1.1\r\nHost: h\r\n\r\n").toList
      = some (("CONNECT h:443 HTTP/1.1\r\n\r\n").toList,
          joinSep crlf [("GET / HTTP/1.1\r\nHost: h").toList, []])
    ∧ (∀ rest : Bytes, [("GET / HTTP/1.1\r\nHost: h").toList, []] = [rest]
        → joinSep crlf [("GET / HTTP/1.1\r\nHost: h").toList, []] = rest) :=
  c7_tunnel_split
    (("CONNECT h:443 HTTP/1.1\r\n\r\nGET / HTTP/1.1\r\nHost: h\r\n\r\n").toList)
    (("CONNECT h:443 HTTP/1.1").toList)
    [("GET / HTTP/1.1\r\nHost: h").toList, []]
    (by rfl) (by decide)

/-- C7 counterexample: an inner request with a body.  The remainder after
the first `CRLF CRLF` is `GET / HTTP/1.1 CRLF Host: h CRLF CRLF BODY`, but
`DoProxy` stores `GET / HTTP/1.1 CRLF Host: h CRLF BODY`: the embedded
`CRLF CRLF` is collapsed, not preserved byte for byte. -/
theorem c7_tunnel_split_counterexample :
    doProxySplit ("CONNECT h:443 HTTP/1.1\r\n\r\nGET / HTTP/1.1\r\nHost: h\r\n\r\nBODY").toList
      = some (("CONNECT h:443 HTTP/1.1\r\n\r\n").toList,
          ("GET / HTTP/1.1\r\nHost: h\r\nBODY").toList)
    ∧ (("CONNECT h:443 HTTP/1.1\r\n\r\nGET / HTTP/1.1\r\nHost: h\r\n\r\nBODY").toList).drop
        (("CONNECT h:443 HTTP/1.1\r\n\r\n").toList).length
      = ("GET / HTTP/1.1\r\nHost: h\r\n\r\nBODY").toList
    ∧ ("GET / HTTP/1.1\r\nHost: h\r\nBODY").toList
      ≠ ("GET / HTTP/1.1\r\nHost: h\r\n\r\nBODY").toList := by
  decide

/-! ### C2: variable substitution order (src/unnamed/part_001) -/

/-- `Request.FullPath`. -/
def fullPath (r : Request) : Bytes :=
  if r.uri.fragment = [] then r.uri.requestURI
  else r.uri.requestURI ++ '#' :: r.uri.fragment

/-- `prepareBytesVariables(data, req)`: expand the placeholder tokens;
`||CLEN||` expands to the decimal length of the request's current body. -/
def prepareBytesVariables (data : Bytes) (r : Request) : Bytes :=
  let path := if r.uri.path = [] then ['/'] else r.uri.path
  let d := replaceAll data ("||CR||").toList ['\r']
  let d := replaceAll d ("||LF||").toList ['\n']
  let d := replaceAll d ("||ABSURL||").toList r.url
  let d := replaceAll d ("||HOST||").toList r.uri.hostname
  let d := replaceAll d ("||PATH||").toList path
  let d := replaceAll d ("||ESCAPEDPATH||").toList r.uri.escapedPath
  let d := replaceAll d ("||FULLPATH||").toList (fullPath r)
  replaceAll d ("||CLEN||").toList (natDec r.body.length)

/-- The `||END||` truncation applied to the body by
`PrepareRequestVariables`. -/
def endTruncate (data : Bytes) : Bytes :=
  match indexOfSeq ("||END||").toList data with
  | some i => data.take i
  | none => data

/-- `PrepareRequestVariables`: the body is substituted and truncated first
("body first for CLEN"), then method, path, version and each header key and
value are substituted against the final body. -/
def prepareRequestVariables (r : Request) : Request :=
  let body1 := prepareBytesVariables r.body r
  let body2 := endTruncate body1
  let r1 := { r with body := body2 }
  { r1 with
    method := prepareBytesVariables r1.method r1,
    path := prepareBytesVariables r1.path r1,
    version := prepareBytesVariables r1.version r1,
    headers := r1.headers.map (fun e =>
      (e.1, { e.2 with
        key := prepareBytesVariables e.2.key r1,
        value := prepareBytesVariables e.2.value r1 })) }

theorem replaceAll_not_contains (old new : Bytes) (hold : old ≠ []) :
    ∀ s : Bytes, containsSeq old s = false → replaceAll s old new = s := by
  intro s
  induction s with
  | nil =>
    intro _
    exact replaceAll_nil old new hold
  | cons c rest ih =>
    intro h
    unfold containsSeq indexOfSeq at h
    by_cases hpre : old.isPrefixOf (c :: rest)
    · rw [if_pos hpre] at h
      simp at h
    · rw [if_neg hpre] at h
      have hrest : containsSeq old rest = false := by
        unfold containsSeq
        cases hx : indexOfSeq old rest with
        | none => rfl
        | some v => rw [hx] at h; simp at h
      rw [replaceAll_cons_neg old new c rest hold hpre, ih hrest]

theorem pbv_clen_literal (r : Request) :
    prepareBytesVariables ("||CLEN||").toList r = natDec r.body.length := by
  simp only [prepareBytesVariables]
  rw [replaceAll_not_contains ("||CR||").toList ['\r'] (by decide)
        ("||CLEN||").toList (by decide),
      replaceAll_not_contains ("||LF||").toList ['\n'] (by decide)
        ("||CLEN||").toList (by decide),
      replaceAll_not_contains ("||ABSURL||").toList r.url (by decide)
        ("||CLEN||").toList (by decide),
      replaceAll_not_contains ("||HOST||").toList r.uri.hostname (by decide)
        ("||CLEN||").toList (by decide),
      replaceAll_not_contains ("||PATH||").toList _ (by decide)
        ("||CLEN||").toList (by decide),
      replaceAll_not_contains ("||ESCAPEDPATH||").toList r.uri.escapedPath (by decide)
        ("||CLEN||").toList (by decide),
      replaceAll_not_contains ("||FULLPATH||").toList (fullPath r) (by decide)
        ("||CLEN||").toList (by decide)]
  rw [show ("||CLEN||").toList = '|' :: ("|CLEN||").toList from rfl,
      replaceAll_cons_pos _ _ _ _ (by decide) (by decide),
      show (("|CLEN||").toList).drop (('|' :: ("|CLEN||").toList).length - 1) = [] from rfl,
      replaceAll_nil _ _ (by decide), List.append_nil]

set_option maxHeartbeats 1000000 in
/-- The body `PrepareRequestVariables` leaves behind: substituted against
the original body, then truncated at `||END||`. -/
def preparedBody (r : Request) : Bytes := endTruncate (prepareBytesVariables r.body r)

set_option maxHeartbeats 1000000 in
/-- C2: `PrepareRequestVariables` truncates and substitutes the body first,
and only then substitutes every header key and value against the final
body, so a header value that is exactly `||CLEN||` is emitted as the
decimal length of the post-`||END||`-truncation body. -/
theorem c2_clen_order (r : Request) :
    (prepareRequestVariables r).body = preparedBody r
    ∧ (prepareRequestVariables r).headers
        = r.headers.map (fun e =>
            (e.1, { e.2 with
              key := prepareBytesVariables e.2.key { r with body := preparedBody r },
              value := prepareBytesVariables e.2.value { r with body := preparedBody r } }))
    ∧ (∀ e ∈ r.headers, e.2.value = ("||CLEN||").toList →
        ∃ hl, (e.1, hl) ∈ (prepareRequestVariables r).headers
          ∧ hl.value = natDec (preparedBody r).length) := by
  refine ⟨by simp only [prepareRequestVariables, preparedBody],
    by simp only [prepareRequestVariables, preparedBody], ?_⟩
  intro e he hval
  have hh : (prepareRequestVariables r).headers
      = r.headers.map (fun e =>
          (e.1, { e.2 with
            key := prepareBytesVariables e.2.key { r with body := preparedBody r },
            value := prepareBytesVariables e.2.value { r with body := preparedBody r } })) := by
    simp only [prepareRequestVariables, preparedBody]
  refine ⟨{ e.2 with
      key := prepareBytesVariables e.2.key { r with body := preparedBody r },
      value := prepareBytesVariables e.2.value { r with body := preparedBody r } }, ?_, ?_⟩
  · rw [hh]
    exact List.mem_map_of_mem _ he
  · have hv : ({ e.2 with
        key := prepareBytesVariables e.2.key { r with body := preparedBody r },
        value := prepareBytesVariables e.2.value { r with body := preparedBody r } }
          : HeaderLine).value
        = prepareBytesVariables e.2.value { r with body := preparedBody r } := by
      with_reducible rfl
    have hb : ({ r with body := preparedBody r } : Request).body = preparedBody r := by
      with_reducible rfl
    rw [hv, hval, pbv_clen_literal, hb]

/-- A request with body `ping||END||pong` and a `Content-Length: ||CLEN||`
header (spec scenario S3). -/
def c2demoRequest : Request :=
  { mkRequest [] with
    body := ("ping||END||pong").toList,
    headers := [(("content-length").toList,
      { key := ("Content-Length").toList, value := ("||CLEN||").toList, pos := 0 })] }

theorem c2_clen_order_witness :
    (prepareRequestVariables c2demoRequest).body = ("ping").toList
    ∧ ∃ hl, (("content-length").toList, hl) ∈ (prepareRequestVariables c2demoRequest).headers
        ∧ hl.value = ("4").toList := by
  obtain ⟨h1, -, h3⟩ := c2_clen_order c2demoRequest
  refine ⟨?_, ?_⟩
  · rw [h1]
    decide
  · obtain ⟨hl, hmem, hval⟩ := h3 (("content-length").toList,
      { key := ("Content-Length").toList, value := ("||CLEN||").toList, pos := 0 })
      (by decide) (by decide)
    exact ⟨hl, hmem, by rw [hval]; decide⟩

/-! ### C10: ParseRawdata is parse-once -/

/-- C10: a successful `ParseRawdata` sets the `parsed` flag, so every later
call returns `nil` immediately and leaves the request unchanged; in
particular mutations through `SetHeader`, `SetMethod` or `SetBody` survive
the unconditional `ParseRawdata` call inside `Do`. -/
theorem c10_parse_idempotent (r r' : Request) (hp : parseRawdata r = .ok r') :
    r'.parsed = true
    ∧ parseRawdata r' = .ok r'
    ∧ (∀ k n v, parseRawdata (setHeader r' k n v) = .ok (setHeader r' k n v))
    ∧ (∀ m, parseRawdata (setMethod r' m) = .ok (setMethod r' m))
    ∧ (∀ b, parseRawdata (setBody r' b) = .ok (setBody r' b)) := by
  have hself : ∀ q : Request, q.parsed = true → parseRawdata q = .ok q := by
    intro q hq
    simp only [parseRawdata, hq, if_true]
  have hparsed : r'.parsed = true := by
    simp only [parseRawdata] at hp
    split at hp
    next h =>
      simp only [Except.ok.injEq] at hp
      rw [← hp]
      exact h
    next =>
      split at hp
      next =>
        split at hp
        next => exact absurd hp (by simp)
        next =>
          simp only [Except.ok.injEq] at hp
          rw [← hp]
      next =>
        split at hp
        next => exact absurd hp (by simp)
        next =>
          simp only [Except.ok.injEq] at hp
          rw [← hp]
  refine ⟨hparsed, hself r' hparsed, ?_, ?_, ?_⟩
  · intro k n v
    refine hself _ ?_
    simp only [setHeader]
    exact hparsed
  · intro m
    exact hself _ hparsed
  · intro b
    exact hself _ hparsed

theorem c10_parse_idempotent_witness :
    parseRawdata
        ((parseRawdata (mkRequest ("GET / HTTP/1.1\r\nHost: h\r\n\r\n").toList)).toOption.getD
          (mkRequest []))
      = .ok ((parseRawdata (mkRequest ("GET / HTTP/1.1\r\nHost: h\r\n\r\n").toList)).toOption.getD
          (mkRequest []))
    ∧ parseRawdata
        (setHeader
          ((parseRawdata (mkRequest ("GET / HTTP/1.1\r\nHost: h\r\n\r\n").toList)).toOption.getD
            (mkRequest []))
          ("host").toList ("Host").toList ("x").toList)
      = .ok (setHeader
          ((parseRawdata (mkRequest ("GET / HTTP/1.1\r\nHost: h\r\n\r\n").toList)).toOption.getD
            (mkRequest []))
          ("host").toList ("Host").toList ("x").toList) := by
  obtain ⟨-, h2, h3, -, -⟩ := c10_parse_idempotent
    (mkRequest ("GET / HTTP/1.1\r\nHost: h\r\n\r\n").toList)
    ((parseRawdata (mkRequest ("GET / HTTP/1.1\r\nHost: h\r\n\r\n").toList)).toOption.getD
      (mkRequest []))
    (by rfl)
  exact ⟨h2, h3 ("host").toList ("Host").toList ("x").toList⟩

/-! ### C5: Connection header token matching -/

/-- Modelled from the spec: the `WantsClose`/`WantsUpgrade` methods are
missing from src (only `request_test.go` and `client.go` reference them).
Per spec section 4.1, the `Connection` header value is matched as
comma-separated tokens, each trimmed and compared ASCII
case-insensitively on exact token boundaries. -/
def hasConnectionToken (r : Request) (token : Bytes) : Bool :=
  match mapFind r.headers ("connection").toList with
  | none => false
  | some hl => (splitOnSeq [','] hl.value).any
      (fun t => toLowerL (trimSpace t) == token)

/-- Modelled from the spec: `wants_close` is the `close` token query. -/
def wantsClose (r : Request) : Bool := hasConnectionToken r ("close").toList

/-- Modelled from the spec: `wants_upgrade` is the `upgrade` token query. -/
def wantsUpgrade (r : Request) : Bool := hasConnectionToken r ("upgrade").toList

/-- C5: `wantsClose` is true exactly when some comma-separated token of the
`Connection` header value lowercases and trims to `close` (and `wantsUpgrade`
likewise for `upgrade`); on the test-suite inputs, `closeconn`, `close-conn`
and `close_conn` do not match while `close`, `CLOSE` and `keep-alive, close`
do. -/
theorem c5_connection_tokens :
    (∀ r : Request, wantsClose r = true ↔
      ∃ hl, mapFind r.headers ("connection").toList = some hl
        ∧ ∃ t ∈ splitOnSeq [','] hl.value, toLowerL (trimSpace t) = ("close").toList)
    ∧ (∀ r : Request, wantsUpgrade r = true ↔
      ∃ hl, mapFind r.headers ("connection").toList = some hl
        ∧ ∃ t ∈ splitOnSeq [','] hl.value, toLowerL (trimSpace t) = ("upgrade").toList)
    ∧ wantsClose ((parseRawdata (mkRequest
        ("GET / HTTP/1.1\r\nHost: x\r\nConnection: close\r\n\r\n").toList)).toOption.getD
          (mkRequest [])) = true
    ∧ wantsClose ((parseRawdata (mkRequest
        ("GET / HTTP/1.1\r\nHost: x\r\nConnection: CLOSE\r\n\r\n").toList)).toOption.getD
          (mkRequest [])) = true
    ∧ wantsClose ((parseRawdata (mkRequest
        ("GET / HTTP/1.1\r\nHost: x\r\nConnection: keep-alive, close\r\n\r\n").toList)).toOption.getD
          (mkRequest [])) = true
    ∧ wantsClose ((parseRawdata (mkRequest
        ("GET / HTTP/1.1\r\nHost: x\r\nConnection: keep-alive\r\n\r\n").toList)).toOption.getD
          (mkRequest [])) = false
    ∧ wantsClose ((parseRawdata (mkRequest
        ("GET / HTTP/1.1\r\nHost: x\r\nConnection: keep-alive, closeconn\r\n\r\n").toList)).toOption.getD
          (mkRequest [])) = false
    ∧ wantsClose ((parseRawdata (mkRequest
        ("GET / HTTP/1.1\r\nHost: x\r\nConnection: keep-alive, close-conn\r\n\r\n").toList)).toOption.getD
          (mkRequest [])) = false
    ∧ wantsClose ((parseRawdata (mkRequest
        ("GET / HTTP/1.1\r\nHost: x\r\nConnection: keep_alive, close_conn\r\n\r\n").toList)).toOption.getD
          (mkRequest [])) = false
    ∧ wantsUpgrade ((parseRawdata (mkRequest
        ("GET / HTTP/1.1\r\nHost: x\r\nConnection: Upgrade\r\n\r\n").toList)).toOption.getD
          (mkRequest [])) = true
    ∧ wantsUpgrade ((parseRawdata (mkRequest
        ("GET / HTTP/1.1\r\nHost: x\r\nConnection: keep-alive\r\n\r\n").toList)).toOption.getD
          (mkRequest [])) = false := by
  have hiff : ∀ (r : Request) (token : Bytes), hasConnectionToken r token = true ↔
      ∃ hl, mapFind r.headers ("connection").toList = some hl
        ∧ ∃ t ∈ splitOnSeq [','] hl.value, toLowerL (trimSpace t) = token := by
    intro r token
    unfold hasConnectionToken
    cases hf : mapFind r.headers ("connection").toList with
    | none =>
      simp
    | some hl =>
      rw [List.any_eq_true]
      constructor
      · rintro ⟨t, ht, heq⟩
        exact ⟨hl, rfl, t, ht, beq_iff_eq.mp heq⟩
      · rintro ⟨hl2, hhl2, t, ht, heq⟩
        rw [Option.some.injEq] at hhl2
        subst hhl2
        exact ⟨t, ht, beq_iff_eq.mpr heq⟩
  refine ⟨fun r => hiff r ("close").toList, fun r => hiff r ("upgrade").toList,
    ?_, ?_, ?_, ?_, ?_, ?_, ?_, ?_, ?_⟩ <;> decide

/-! ### C9: Response.ParseRawdata decode outcomes (src/response.go)

`http.ReadResponse`, `gzip.NewReader`, `brotli.NewReader`, `flate.NewReader`
and `io.ReadAll` are external libraries; their success or failure on the
given raw buffer is treated as an oracle, and the control flow of
`Response.ParseRawdata` is embedded over it. -/

inductive DecodeOutcome
  | ok
  | errReturn
  | panicked
deriving Repr, DecidableEq

/-- The decode behaviour of a raw response buffer, as reported by the
external HTTP and compression libraries. -/
structure DecodeEnv where
  readResponseOk : Bool
  contentEncoding : Bytes
  gzipNewReaderOk : Bool
  readAllOk : Bool
deriving Repr, DecidableEq

/-- Control flow of `Response.ParseRawdata`: a `ReadResponse` failure and a
body-read failure are returned as errors, but a failed `gzip.NewReader` on
a `Content-Encoding: gzip` response is `panic(err)`. -/
def responseParseRawdata (parsed : Bool) (env : DecodeEnv) : DecodeOutcome :=
  if parsed then .ok
  else if !env.readResponseOk then .errReturn
  else if env.contentEncoding = ("gzip").toList then
    if !env.gzipNewReaderOk then .panicked
    else if !env.readAllOk then .errReturn
    else .ok
  else if !env.readAllOk then .errReturn
  else .ok

/-- `Response.Body()` and `Response.StatusCode()` call `ParseRawdata`
unconditionally, so they share its outcome (including the panic). -/
def responseBodyOutcome (parsed : Bool) (env : DecodeEnv) : DecodeOutcome :=
  responseParseRawdata parsed env

/-- C9: a well-formed head declaring `Content-Encoding: gzip` whose body is
not a valid gzip stream (ReadResponse succeeds, gzip.NewReader fails) makes
`ParseRawdata` — and therefore `Body()`/`StatusCode()` — panic, while every
other decode failure is returned as an error value. -/
theorem c9_gzip_panic :
    responseParseRawdata false
        { readResponseOk := true, contentEncoding := ("gzip").toList,
          gzipNewReaderOk := false, readAllOk := true } = .panicked
    ∧ (∀ env : DecodeEnv, env.readResponseOk = true → env.contentEncoding = ("gzip").toList →
        env.gzipNewReaderOk = false →
        responseParseRawdata false env = .panicked
        ∧ responseBodyOutcome false env = .panicked)
    ∧ (∀ env : DecodeEnv, env.contentEncoding ≠ ("gzip").toList ∨ env.gzipNewReaderOk = true →
        responseParseRawdata false env ≠ .panicked)
    ∧ (∀ env : DecodeEnv, env.contentEncoding ≠ ("gzip").toList → env.readResponseOk = true →
        env.readAllOk = false →
        responseParseRawdata false env = .errReturn)
    ∧ (∀ env : DecodeEnv, env.readResponseOk = false →
        responseParseRawdata false env = .errReturn) := by
  refine ⟨by decide, ?_, ?_, ?_, ?_⟩
  · intro env h1 h2 h3
    constructor <;> simp [responseParseRawdata, responseBodyOutcome, h1, h2, h3]
  · intro env h
    by_cases hce : env.contentEncoding = ['g', 'z', 'i', 'p']
    · have hgz : env.gzipNewReaderOk = true := by
        rcases h with h | h
        · exact absurd (show env.contentEncoding = ("gzip").toList from hce) h
        · exact h
      cases hr : env.readResponseOk <;> cases ha : env.readAllOk <;>
        simp [responseParseRawdata, hce, hgz, hr, ha]
    · cases hr : env.readResponseOk <;> cases ha : env.readAllOk <;>
        simp [responseParseRawdata, hce, hr, ha]
  · intro env h1 h2 h3
    simp [responseParseRawdata, h1, h2, h3]
    intro hc
    exact absurd (show env.contentEncoding = ("gzip").toList from hc) h1
  · intro env h1
    simp [responseParseRawdata, h1]

theorem c9_gzip_panic_witness :
    responseParseRawdata false
        { readResponseOk := true, contentEncoding := ("gzip").toList,
          gzipNewReaderOk := false, readAllOk := true } = .panicked
    ∧ responseBodyOutcome false
        { readResponseOk := true, contentEncoding := ("gzip").toList,
          gzipNewReaderOk := false, readAllOk := true } = .panicked
    ∧ responseParseRawdata false
        { readResponseOk := true, contentEncoding := ("br").toList,
          gzipNewReaderOk := true, readAllOk := false } = .errReturn := by
  obtain ⟨h1, h2, -, h4, -⟩ := c9_gzip_panic
  obtain ⟨h2a, h2b⟩ := h2
    { readResponseOk := true, contentEncoding := ("gzip").toList,
      gzipNewReaderOk := false, readAllOk := true } (by decide) (by decide) (by decide)
  exact ⟨h1, h2b, h4
    { readResponseOk := true, contentEncoding := ("br").toList,
      gzipNewReaderOk := true, readAllOk := false } (by decide) (by decide) (by decide)⟩

/-! ### C3/C4: exchange engine (src/client.go)

Network reads are modelled as a trace of `Read` results.  A Go error value
is abstracted to what the code inspects: whether it is a `net.Error` with
`Timeout() == true`, whether it is identically `io.EOF`, and its
`Error()` text. -/

structure ReadErr where
  isTimeout : Bool
  isEOF : Bool
  text : Bytes
deriving Repr, DecidableEq

deriving instance DecidableEq for Except

/-- `isStaleConnError` (client.go lines 425-436). -/
def isStaleConnError (e : Option ReadErr) : Bool :=
  match e with
  | none => false
  | some e =>
    e.isEOF || containsSeq ("broken pipe").toList e.text
      || containsSeq ("connection reset").toList e.text
      || containsSeq ("use of closed network connection").toList e.text

/-- Observable steps of `DoHTTP`/`DoHTTPS` around `doConnWithPool`. -/
inductive PoolAction
  | exchangedPooled
  | closedPooled
  | resetResponse
  | dialedFresh
  | exchangedFresh
deriving Repr, DecidableEq

/-- The exchange oracle for one `DoHTTP` call: what the pool returns, and
how the exchange on the pooled connection, the fresh dial, and the exchange
on the fresh connection would each end. -/
structure ExchangeEnv where
  keepAliveEnabled : Bool
  pooledConn : Option Nat
  pooledResult : Option ReadErr
  dialResult : Except ReadErr Nat
  freshResult : Option ReadErr
deriving Repr, DecidableEq

/-- Control flow of `DoHTTP` (client.go lines 216-248; `DoHTTPS` is
identical up to port and scheme): try the pooled connection when pooling
is enabled; on a stale-connection error close it, reset the response and
retry once on a fresh dial; any other pooled error, and any error of the
fresh path, propagates. -/
def doHTTPModel (env : ExchangeEnv) : Option ReadErr × List PoolAction :=
  match (if env.keepAliveEnabled then env.pooledConn else none) with
  | some _ =>
    match env.pooledResult with
    | none => (none, [.exchangedPooled])
    | some e =>
      if isStaleConnError (some e) then
        match env.dialResult with
        | .error de =>
          (some de, [.exchangedPooled, .closedPooled, .resetResponse, .dialedFresh])
        | .ok _ =>
          (env.freshResult,
            [.exchangedPooled, .closedPooled, .resetResponse, .dialedFresh, .exchangedFresh])
      else (some e, [.exchangedPooled])
  | none =>
    match env.dialResult with
    | .error de => (some de, [.dialedFresh])
    | .ok _ => (env.freshResult, [.dialedFresh, .exchangedFresh])

/-- C4: on a pooled connection, a stale error (EOF before data, or error
text containing one of the three closed-socket phrases) closes the pooled
connection, resets the response and performs exactly one retry on a fresh
dial, whose outcome (dial error included) is what the caller sees; a
non-stale pooled error propagates with no retry; a pooled success ends the
call; and no execution dials more than once. -/
theorem c4_stale_retry :
    (∀ e : ReadErr, isStaleConnError (some e)
      = (e.isEOF || containsSeq ("broken pipe").toList e.text
          || containsSeq ("connection reset").toList e.text
          || containsSeq ("use of closed network connection").toList e.text))
    ∧ (∀ env : ExchangeEnv, ∀ c : Nat, ∀ e de : ReadErr,
        env.keepAliveEnabled = true → env.pooledConn = some c →
        env.pooledResult = some e → isStaleConnError (some e) = true →
        env.dialResult = .error de →
        doHTTPModel env
          = (some de, [.exchangedPooled, .closedPooled, .resetResponse, .dialedFresh]))
    ∧ (∀ env : ExchangeEnv, ∀ c c' : Nat, ∀ e : ReadErr,
        env.keepAliveEnabled = true → env.pooledConn = some c →
        env.pooledResult = some e → isStaleConnError (some e) = true →
        env.dialResult = .ok c' →
        doHTTPModel env
          = (env.freshResult,
              [.exchangedPooled, .closedPooled, .resetResponse, .dialedFresh, .exchangedFresh]))
    ∧ (∀ env : ExchangeEnv, ∀ c : Nat, ∀ e : ReadErr,
        env.keepAliveEnabled = true → env.pooledConn = some c →
        env.pooledResult = some e → isStaleConnError (some e) = false →
        doHTTPModel env = (some e, [.exchangedPooled]))
    ∧ (∀ env : ExchangeEnv, ∀ c : Nat,
        env.keepAliveEnabled = true → env.pooledConn = some c →
        env.pooledResult = none →
        doHTTPModel env = (none, [.exchangedPooled]))
    ∧ (∀ env : ExchangeEnv, (doHTTPModel env).2.count .dialedFresh ≤ 1) := by
  refine ⟨?_, ?_, ?_, ?_, ?_, ?_⟩
  · intro e
    rfl
  · intro env c e de h1 h2 h3 h4 h5
    simp [doHTTPModel, h1, h2, h3, h4, h5]
  · intro env c c' e h1 h2 h3 h4 h5
    simp [doHTTPModel, h1, h2, h3, h4, h5]
  · intro env c e h1 h2 h3 h4
    simp [doHTTPModel, h1, h2, h3, h4]
  · intro env c h1 h2 h3
    simp [doHTTPModel, h1, h2, h3]
  · intro env
    unfold doHTTPModel
    cases hk : (if env.keepAliveEnabled then env.pooledConn else none) with
    | none => cases env.dialResult <;> simp [List.count_cons]
    | some c =>
      cases env.pooledResult with
      | none => simp
      | some e =>
        cases hst : isStaleConnError (some e) with
        | false => simp [hst, List.count_cons]
        | true =>
          simp only [hst, if_true]
          cases env.dialResult <;> simp [List.count_cons]

theorem c4_stale_retry_witness :
    doHTTPModel
        { keepAliveEnabled := true, pooledConn := some 1,
          pooledResult := some ⟨false, true, []⟩,
          dialResult := .ok 2, freshResult := none }
      = (none, [.exchangedPooled, .closedPooled, .resetResponse, .dialedFresh, .exchangedFresh])
    ∧ doHTTPModel
        { keepAliveEnabled := true, pooledConn := some 1,
          pooledResult := some ⟨false, false, ("read tcp: connection refused").toList⟩,
          dialResult := .ok 2, freshResult := none }
      = (some ⟨false, false, ("read tcp: connection refused").toList⟩,
          [.exchangedPooled]) := by
  obtain ⟨-, -, h3, h4, -, -⟩ := c4_stale_retry
  constructor
  · exact h3
      { keepAliveEnabled := true, pooledConn := some 1,
        pooledResult := some ⟨false, true, []⟩,
        dialResult := .ok 2, freshResult := none }
      1 2 ⟨false, true, []⟩
      (by decide) (by decide) (by decide) (by decide) (by decide)
  · exact h4
      { keepAliveEnabled := true, pooledConn := some 1,
        pooledResult := some ⟨false, false, ("read tcp: connection refused").toList⟩,
        dialResult := .ok 2, freshResult := none }
      1 ⟨false, false, ("read tcp: connection refused").toList⟩
      (by decide) (by decide) (by decide) (by decide)

/-! ### C8: connection pool capacity (src/pool.go)

Times are `Int` nanoseconds; connections are identified by `Nat` handles.
The Go `map[string][]*pooledConn` is an association list. -/

structure PooledConn where
  conn : Nat
  idleAt : Int
deriving Repr, DecidableEq

structure ConnPool where
  conns : List (Bytes × List PooledConn)
  maxIdlePerHost : Int
  idleTimeout : Int
  closed : Bool
deriving Repr, DecidableEq

def defaultMaxIdleConnsPerHost : Int := 5

def defaultIdleTimeout : Int := 90 * 1000000000

/-- `NewConnPool`: non-positive limits fall back to the defaults. -/
def newConnPool (maxIdlePerHost idleTimeout : Int) : ConnPool :=
  { conns := [],
    maxIdlePerHost := if maxIdlePerHost ≤ 0 then defaultMaxIdleConnsPerHost else maxIdlePerHost,
    idleTimeout := if idleTimeout ≤ 0 then defaultIdleTimeout else idleTimeout,
    closed := false }

/-- `p.conns[key]` (a missing key is Go's nil slice). -/
def poolLookup (conns : List (Bytes × List PooledConn)) (key : Bytes) : List PooledConn :=
  ((conns.find? (fun e => e.1 == key)).map (fun e => e.2)).getD []

/-- `p.conns[key] = v`. -/
def poolSet (conns : List (Bytes × List PooledConn)) (key : Bytes) (v : List PooledConn) :
    List (Bytes × List PooledConn) :=
  if conns.any (fun e => e.1 == key) then
    conns.map (fun e => if e.1 == key then (key, v) else e)
  else conns ++ [(key, v)]

/-- `delete(p.conns, key)`. -/
def poolDelete (conns : List (Bytes × List PooledConn)) (key : Bytes) :
    List (Bytes × List PooledConn) :=
  conns.filter (fun e => !(e.1 == key))

/-- `cleanupKeyLocked`: drop entries idle for at least `idleTimeout`,
removing the key when nothing is left. -/
def cleanupKey (p : ConnPool) (now : Int) (key : Bytes) : ConnPool :=
  let cs := poolLookup p.conns key
  if cs.isEmpty then p
  else
    let valid := cs.filter (fun pc => now - pc.idleAt < p.idleTimeout)
    if valid.isEmpty then { p with conns := poolDelete p.conns key }
    else { p with conns := poolSet p.conns key valid }

/-- `ConnPool.Put`: reject a nil connection or a closed pool; clean the
key; reject when the host is at capacity; otherwise append `{conn, now}`. -/
def poolPut (p : ConnPool) (now : Int) (key : Bytes) (conn : Option Nat) :
    Bool × ConnPool :=
  match conn with
  | none => (false, p)
  | some c =>
    if p.closed then (false, p)
    else
      let p1 := cleanupKey p now key
      let cs := poolLookup p1.conns key
      if p1.maxIdlePerHost ≤ (cs.length : Int) then (false, p1)
      else (true, { p1 with conns := poolSet p1.conns key (cs ++ [⟨c, now⟩]) })

/-- `ConnPool.LenForHost`. -/
def lenForHost (p : ConnPool) (key : Bytes) : Nat := (poolLookup p.conns key).length

/-- A sequence of `Put` calls of distinct connections at given times. -/
def putSeq (p : ConnPool) (key : Bytes) : List (Int × Nat) → List Bool × ConnPool
  | [] => ([], p)
  | q :: rest =>
    let r1 := poolPut p q.1 key (some q.2)
    let r2 := putSeq r1.2 key rest
    (r1.1 :: r2.1, r2.2)

theorem poolLookup_nil (key : Bytes) : poolLookup [] key = [] := rfl

theorem poolLookup_single (key : Bytes) (cs : List PooledConn) :
    poolLookup [(key, cs)] key = cs := by
  simp [poolLookup, List.find?]

theorem poolSet_nil (key : Bytes) (v : List PooledConn) :
    poolSet [] key v = [(key, v)] := by
  simp [poolSet]

theorem poolSet_single (key : Bytes) (cs v : List PooledConn) :
    poolSet [(key, cs)] key v = [(key, v)] := by
  simp [poolSet]

theorem cleanupKey_keep (N T : Int) (key : Bytes) (cs : List PooledConn) (now : Int)
    (h : ∀ pc ∈ cs, now - pc.idleAt < T) :
    cleanupKey
        { conns := [(key, cs)], maxIdlePerHost := N, idleTimeout := T, closed := false }
        now key
      = { conns := [(key, cs)], maxIdlePerHost := N, idleTimeout := T, closed := false } := by
  unfold cleanupKey
  simp only [poolLookup_single]
  cases cs with
  | nil => simp
  | cons pc rest =>
    have hfilter : (pc :: rest).filter
        (fun pc => decide (now - pc.idleAt
          < ({ conns := [(key, pc :: rest)], maxIdlePerHost := N, idleTimeout := T,
               closed := false : ConnPool }).idleTimeout)) = pc :: rest := by
      rw [List.filter_eq_self]
      intro a ha
      simpa using h a ha
    simp only [List.isEmpty_cons, hfilter]
    simp [poolSet_single]

theorem poolPut_empty (N T t : Int) (c : Nat) (key : Bytes) (hN : 0 < N) :
    poolPut { conns := [], maxIdlePerHost := N, idleTimeout := T, closed := false }
        t key (some c)
      = (true,
          { conns := [(key, [⟨c, t⟩])], maxIdlePerHost := N, idleTimeout := T,
            closed := false }) := by
  have h1 : cleanupKey
      { conns := [], maxIdlePerHost := N, idleTimeout := T, closed := false } t key
      = { conns := [], maxIdlePerHost := N, idleTimeout := T, closed := false } := by
    unfold cleanupKey
    simp [poolLookup_nil]
  unfold poolPut
  simp only [h1, poolLookup_nil]
  rw [if_neg (by simp), if_neg (by simp; omega), poolSet_nil]
  simp

theorem putSeq_append (p : ConnPool) (key : Bytes) :
    ∀ (a b : List (Int × Nat)),
      putSeq p key (a ++ b)
        = ((putSeq p key a).1 ++ (putSeq (putSeq p key a).2 key b).1,
           (putSeq (putSeq p key a).2 key b).2) := by
  intro a
  induction a generalizing p with
  | nil => intro b; simp [putSeq]
  | cons q rest ih =>
    intro b
    simp only [List.cons_append, putSeq, List.append_eq]
    rw [ih]

theorem putSeq_grow (N T : Int) (key : Bytes) :
    ∀ (puts : List (Int × Nat)) (cs : List PooledConn),
      ((cs.length : Int) + puts.length ≤ N) →
      (∀ pc ∈ cs, ∀ q ∈ puts, q.1 - pc.idleAt < T) →
      (∀ q ∈ puts, ∀ q' ∈ puts, q'.1 - q.1 < T) →
      putSeq { conns := [(key, cs)], maxIdlePerHost := N, idleTimeout := T, closed := false }
          key puts
        = (List.replicate puts.length true,
           { conns := [(key, cs ++ puts.map (fun q => (⟨q.2, q.1⟩ : PooledConn)))],
             maxIdlePerHost := N, idleTimeout := T, closed := false }) := by
  intro puts
  induction puts with
  | nil =>
    intro cs _ _ _
    simp [putSeq]
  | cons q rest ih =>
    intro cs hcap hf hpp
    have hclean := cleanupKey_keep N T key cs q.1
      (fun pc hpc => hf pc hpc q (List.mem_cons_self q rest))
    have hstep : poolPut
        { conns := [(key, cs)], maxIdlePerHost := N, idleTimeout := T, closed := false }
        q.1 key (some q.2)
        = (true,
            { conns := [(key, cs ++ [⟨q.2, q.1⟩])], maxIdlePerHost := N,
              idleTimeout := T, closed := false }) := by
      unfold poolPut
      simp only [hclean, poolLookup_single]
      rw [if_neg (by simp), if_neg (by
        simp only [List.length_cons] at hcap
        simp
        omega), poolSet_single]
    simp only [putSeq, hstep]
    have hih := ih (cs ++ [(⟨q.2, q.1⟩ : PooledConn)])
      (by simp only [List.length_append, List.length_singleton, List.length_cons, List.length_nil] at hcap ⊢; push_cast at hcap ⊢; omega)
      (by
        intro pc hpc q' hq'
        rcases List.mem_append.mp hpc with hpc | hpc
        · exact hf pc hpc q' (List.mem_cons_of_mem q hq')
        · rcases List.mem_singleton.mp hpc with rfl
          exact hpp q (List.mem_cons_self q rest) q' (List.mem_cons_of_mem q hq'))
      (fun a ha b hb => hpp a (List.mem_cons_of_mem q ha) b (List.mem_cons_of_mem q hb))
    rw [hih]
    simp [List.replicate_succ]

/-- C8: on a fresh pool with capacity `N` and one key, `N+1` puts of
non-nil connections within the idle window return `true` `N` times, then
`false`, and the key then holds exactly `N` idle connections. -/
theorem c8_pool_capacity (N T : Int) (key : Bytes) (puts : List (Int × Nat))
    (hN : 0 < N) (hT : 0 < T)
    (hlen : puts.length = N.toNat + 1)
    (hpp : ∀ q ∈ puts, ∀ q' ∈ puts, q'.1 - q.1 < T) :
    (putSeq (newConnPool N T) key puts).1 = List.replicate N.toNat true ++ [false]
    ∧ lenForHost (putSeq (newConnPool N T) key puts).2 key = N.toNat := by
  have hNcast : ((N.toNat : Int)) = N := Int.toNat_of_nonneg (le_of_lt hN)
  have hpool : newConnPool N T
      = { conns := [], maxIdlePerHost := N, idleTimeout := T, closed := false } := by
    unfold newConnPool
    rw [if_neg (by omega), if_neg (by omega)]
  cases puts with
  | nil => simp at hlen
  | cons q0 rest =>
    have hrestlen : rest.length = N.toNat := by
      simp only [List.length_cons] at hlen
      omega
    have hNt1 : 1 ≤ N.toNat := by omega
    have hrestne : rest ≠ [] := by
      intro h
      rw [h] at hrestlen
      simp at hrestlen
      omega
    obtain ⟨grows, qlast, hsplit⟩ : ∃ grows qlast, rest = grows ++ [qlast] :=
      ⟨rest.dropLast, rest.getLast hrestne, (List.dropLast_append_getLast hrestne).symm⟩
    have hgrowslen : grows.length = N.toNat - 1 := by
      rw [hsplit] at hrestlen
      simp only [List.length_append, List.length_singleton] at hrestlen
      omega
    have hmem : ∀ q ∈ grows, q ∈ q0 :: rest := by
      intro q hq
      rw [hsplit]
      exact List.mem_cons_of_mem q0 (List.mem_append_left _ hq)
    have hmemlast : qlast ∈ q0 :: rest := by
      rw [hsplit]
      exact List.mem_cons_of_mem q0
        (List.mem_append_right _ (List.mem_singleton.mpr rfl))
    have hmem0 : q0 ∈ q0 :: rest := List.mem_cons_self q0 rest
    rw [hpool, hsplit]
    simp only [putSeq, poolPut_empty N T q0.1 q0.2 key hN, putSeq_append]
    have hgrow := putSeq_grow N T key grows [(⟨q0.2, q0.1⟩ : PooledConn)]
      (by
        simp only [List.length_singleton]
        omega)
      (by
        intro pc hpc q hq
        rcases List.mem_singleton.mp hpc with rfl
        exact hpp q0 hmem0 q (hmem q hq))
      (fun a ha b hb => hpp a (hmem a ha) b (hmem b hb))
    rw [hgrow]
    have hentlen : ((⟨q0.2, q0.1⟩ : PooledConn)
        :: grows.map (fun q => (⟨q.2, q.1⟩ : PooledConn))).length = N.toNat := by
      simp only [List.length_cons, List.length_map]
      omega
    have hfreshlast : ∀ pc ∈ (⟨q0.2, q0.1⟩ : PooledConn)
        :: grows.map (fun q => (⟨q.2, q.1⟩ : PooledConn)),
        qlast.1 - pc.idleAt < T := by
      intro pc hpc
      rcases List.mem_cons.mp hpc with rfl | hpc
      · exact hpp q0 hmem0 qlast hmemlast
      · obtain ⟨q, hq, rfl⟩ := List.mem_map.mp hpc
        exact hpp q (hmem q hq) qlast hmemlast
    have hlast : poolPut
        { conns := [(key, (⟨q0.2, q0.1⟩ : PooledConn)
            :: grows.map (fun q => (⟨q.2, q.1⟩ : PooledConn)))],
          maxIdlePerHost := N, idleTimeout := T, closed := false }
        qlast.1 key (some qlast.2)
        = (false,
            { conns := [(key, (⟨q0.2, q0.1⟩ : PooledConn)
                :: grows.map (fun q => (⟨q.2, q.1⟩ : PooledConn)))],
              maxIdlePerHost := N, idleTimeout := T, closed := false }) := by
      unfold poolPut
      rw [cleanupKey_keep N T key _ qlast.1 hfreshlast]
      simp only [poolLookup_single]
      rw [if_neg (by simp), if_pos (by
        simp only [hentlen]
        omega)]
    constructor
    · simp only [List.singleton_append, putSeq, hlast]
      show true :: (List.replicate grows.length true ++ [false]) = _
      rw [hgrowslen]
      rw [show N.toNat = (N.toNat - 1) + 1 by omega, List.replicate_succ]
      simp
    · simp only [List.singleton_append, putSeq, hlast]
      show lenForHost
        { conns := [(key, (⟨q0.2, q0.1⟩ : PooledConn)
            :: grows.map (fun q => (⟨q.2, q.1⟩ : PooledConn)))],
          maxIdlePerHost := N, idleTimeout := T, closed := false } key = N.toNat
      unfold lenForHost
      rw [poolLookup_single, hentlen]

theorem c8_pool_capacity_witness :
    (putSeq (newConnPool 2 5) ("http://example.com:80").toList [(0, 1), (1, 2), (2, 3)]).1
      = List.replicate (Int.toNat 2) true ++ [false]
    ∧ lenForHost
        (putSeq (newConnPool 2 5) ("http://example.com:80").toList [(0, 1), (1, 2), (2, 3)]).2
        ("http://example.com:80").toList = Int.toNat 2 :=
  c8_pool_capacity 2 5 (("http://example.com:80").toList) [(0, 1), (1, 2), (2, 3)]
    (by decide) (by decide) (by decide) (by decide)

/-! ### C3: two-phase read loop (src/client.go doConnInternal) -/

/-- `DefaultQuietTimeout = 10 * time.Millisecond`, in nanoseconds. -/
def defaultQuietTimeout : Nat := 10000000

/-- One result of `conn.Read`: the time the loop iteration runs at, the
bytes read, and the error value, if any. -/
structure ReadEv where
  now : Nat
  chunk : Bytes
  err : Option ReadErr
deriving Repr, DecidableEq

/-- The read loop of `doConnInternal` over a trace of reads, accumulating
response bytes and the deadlines set by `SetReadDeadline`; `none` models a
connection that blocks forever (trace exhausted without a terminating
error). -/
def readLoop (quiet absDeadline : Nat) :
    Bool → Bytes → List Nat → List ReadEv → Option (Option ReadErr × Bytes × List Nat)
  | _, _, _, [] => none
  | received, raw, dls, ev :: rest =>
    let dl := if received then min (ev.now + quiet) absDeadline else absDeadline
    if ev.chunk.isEmpty then
      match ev.err with
      | none => readLoop quiet absDeadline received raw (dls ++ [dl]) rest
      | some e =>
        if e.isTimeout then some (if received then none else some e, raw, dls ++ [dl])
        else if e.isEOF then some (if received then none else some e, raw, dls ++ [dl])
        else if ("tls: user canceled").toList.isSuffixOf e.text then
          some (none, raw, dls ++ [dl])
        else some (some e, raw, dls ++ [dl])
    else
      readLoop quiet absDeadline true (raw ++ ev.chunk) (dls ++ [dl]) rest

/-- `doConnInternal`: a write error returns immediately; otherwise a zero
`QuietTimeout` is replaced by the default and the loop runs with the
absolute deadline `writeTime + Timeout`. -/
def doConnInternal (writeErr : Option ReadErr) (timeout quietTimeout writeTime : Nat)
    (evs : List ReadEv) : Option (Option ReadErr × Bytes × List Nat) :=
  match writeErr with
  | some e => some (some e, [], [])
  | none =>
    let quiet := if quietTimeout = 0 then defaultQuietTimeout else quietTimeout
    readLoop quiet (writeTime + timeout) false [] [] evs

/-- Index of the first read that returns no data and an error — the read
the loop terminates on. -/
def termIdx : List ReadEv → Option Nat
  | [] => none
  | ev :: rest =>
    if ev.chunk.isEmpty ∧ ev.err.isSome then some 0
    else (termIdx rest).map (fun n => n + 1)

/-- Whether any read before index `k` delivered data. -/
def receivedBy : List ReadEv → Nat → Bool
  | [], _ => false
  | _ :: _, 0 => false
  | ev :: rest, k + 1 => !ev.chunk.isEmpty || receivedBy rest k

/-- The bytes delivered before index `k`, in order. -/
def gatherRaw : List ReadEv → Nat → Bytes
  | [], _ => []
  | _ :: _, 0 => []
  | ev :: rest, k + 1 => ev.chunk ++ gatherRaw rest k

/-- The read deadlines the spec prescribes for iterations `0..k`: the
absolute deadline while no data has arrived, then
`min (now + QuietTimeout) absoluteDeadline`. -/
def deadlinesSpec (quiet ad : Nat) : Bool → List ReadEv → Nat → List Nat
  | _, [], _ => []
  | received, ev :: _, 0 => [if received then min (ev.now + quiet) ad else ad]
  | received, ev :: rest, k + 1 =>
    (if received then min (ev.now + quiet) ad else ad)
      :: deadlinesSpec quiet ad (received || !ev.chunk.isEmpty) rest k

/-- The termination table of the claim: a timeout or EOF after data is
success, before data it is the error; a `tls: user canceled` suffix is
success; anything else is the error. -/
def specOutcome (e : ReadErr) (received : Bool) : Option ReadErr :=
  if e.isTimeout then (if received then none else some e)
  else if e.isEOF then (if received then none else some e)
  else if ("tls: user canceled").toList.isSuffixOf e.text then none
  else some e

theorem readLoop_spec (quiet ad : Nat) :
    ∀ (evs : List ReadEv) (received : Bool) (raw : Bytes) (dls : List Nat),
      (termIdx evs = none → readLoop quiet ad received raw dls evs = none)
      ∧ (∀ k, termIdx evs = some k →
          ∃ ev e, evs.get? k = some ev ∧ ev.err = some e ∧ ev.chunk = [] ∧
            readLoop quiet ad received raw dls evs
              = some (specOutcome e (received || receivedBy evs k),
                  raw ++ gatherRaw evs k,
                  dls ++ deadlinesSpec quiet ad received evs k)) := by
  intro evs
  induction evs with
  | nil =>
    intro received raw dls
    exact ⟨fun _ => rfl, fun k hk => by simp [termIdx] at hk⟩
  | cons ev rest ih =>
    intro received raw dls
    by_cases hterm : ev.chunk.isEmpty ∧ ev.err.isSome
    · constructor
      · intro hk
        rw [termIdx, if_pos hterm] at hk
        exact absurd hk (by simp)
      · intro k hk
        rw [termIdx, if_pos hterm] at hk
        rw [Option.some.injEq] at hk
        subst hk
        obtain ⟨hempty, hsome⟩ := hterm
        obtain ⟨e, he⟩ := Option.isSome_iff_exists.mp hsome
        refine ⟨ev, e, rfl, he, List.isEmpty_iff.mp hempty, ?_⟩
        rw [readLoop]
        simp only [hempty, if_true, he]
        have hrb : receivedBy (ev :: rest) 0 = false := rfl
        have hgr : gatherRaw (ev :: rest) 0 = [] := rfl
        have hds : deadlinesSpec quiet ad received (ev :: rest) 0
            = [if received then min (ev.now + quiet) ad else ad] := rfl
        rw [hrb, hgr, hds, specOutcome]
        simp only [Bool.or_false, List.append_nil]
        split
        · rfl
        · split
          · rfl
          · split
            · rfl
            · rfl
    · have htermx : termIdx (ev :: rest) = (termIdx rest).map (fun n => n + 1) := by
        rw [termIdx, if_neg hterm]
      by_cases hchunk : ev.chunk.isEmpty
      · have herr : ev.err = none := by
          cases he : ev.err with
          | none => rfl
          | some e => exact absurd ⟨hchunk, by rw [he]; rfl⟩ hterm
        have hstep : readLoop quiet ad received raw dls (ev :: rest)
            = readLoop quiet ad received raw
                (dls ++ [if received then min (ev.now + quiet) ad else ad]) rest := by
          rw [readLoop]
          simp only [hchunk, if_true, herr]
        constructor
        · intro hk
          rw [htermx] at hk
          have hrest : termIdx rest = none := by
            cases hx : termIdx rest with
            | none => rfl
            | some v => rw [hx] at hk; exact absurd hk (by simp)
          rw [hstep]
          exact (ih received raw _).1 hrest
        · intro k hk
          rw [htermx] at hk
          cases hx : termIdx rest with
          | none => rw [hx] at hk; exact absurd hk (by simp)
          | some k' =>
            rw [hx] at hk
            simp only [Option.map_some', Option.some.injEq] at hk
            subst hk
            obtain ⟨ev', e', h1, h2, h3, h4⟩ := (ih received raw
              (dls ++ [if received then min (ev.now + quiet) ad else ad])).2 k' hx
            refine ⟨ev', e', h1, h2, h3, ?_⟩
            rw [hstep, h4]
            have hrb : receivedBy (ev :: rest) (k' + 1) = receivedBy rest k' := by
              rw [receivedBy, hchunk]
              simp
            have hgr : gatherRaw (ev :: rest) (k' + 1) = gatherRaw rest k' := by
              rw [gatherRaw, List.isEmpty_iff.mp hchunk]
              rfl
            have hds : deadlinesSpec quiet ad received (ev :: rest) (k' + 1)
                = (if received then min (ev.now + quiet) ad else ad)
                  :: deadlinesSpec quiet ad received rest k' := by
              rw [deadlinesSpec, hchunk]
              simp
            rw [hrb, hgr, hds]
            simp [List.append_assoc]
      · have hchunk2 : ev.chunk.isEmpty = false := by
          cases hc : ev.chunk.isEmpty
          · rfl
          · exact absurd hc hchunk
        have hstep : readLoop quiet ad received raw dls (ev :: rest)
            = readLoop quiet ad true (raw ++ ev.chunk)
                (dls ++ [if received then min (ev.now + quiet) ad else ad]) rest := by
          rw [readLoop]
          simp only [hchunk2, if_false, Bool.false_eq_true]
        constructor
        · intro hk
          rw [htermx] at hk
          have hrest : termIdx rest = none := by
            cases hx : termIdx rest with
            | none => rfl
            | some v => rw [hx] at hk; exact absurd hk (by simp)
          rw [hstep]
          exact (ih true (raw ++ ev.chunk) _).1 hrest
        · intro k hk
          rw [htermx] at hk
          cases hx : termIdx rest with
          | none => rw [hx] at hk; exact absurd hk (by simp)
          | some k' =>
            rw [hx] at hk
            simp only [Option.map_some', Option.some.injEq] at hk
            subst hk
            obtain ⟨ev', e', h1, h2, h3, h4⟩ := (ih true (raw ++ ev.chunk)
              (dls ++ [if received then min (ev.now + quiet) ad else ad])).2 k' hx
            refine ⟨ev', e', h1, h2, h3, ?_⟩
            rw [hstep, h4]
            have hrb : (received || receivedBy (ev :: rest) (k' + 1)) = true := by
              rw [receivedBy]
              simp [hchunk2]
            have hrb2 : (true || receivedBy rest k') = true := by simp
            have hgr : gatherRaw (ev :: rest) (k' + 1) = ev.chunk ++ gatherRaw rest k' := rfl
            have hds : deadlinesSpec quiet ad received (ev :: rest) (k' + 1)
                = (if received then min (ev.now + quiet) ad else ad)
                  :: deadlinesSpec quiet ad true rest k' := by
              rw [deadlinesSpec]
              simp [hchunk2]
            rw [hrb, hrb2, hgr, hds]
            simp [List.append_assoc]

/-- C3: `doConnInternal` propagates write errors; it blocks while no read
yields an empty-data error; and at the first such read it succeeds exactly
when the error is a timeout or EOF after at least one byte, or carries the
`tls: user canceled` suffix — a timeout or EOF before any byte, and every
other error, is returned to the caller.  The response bytes are the
concatenation of the received chunks and each iteration's deadline is the
absolute deadline in phase 1 and `min (now + QuietTimeout) absoluteDeadline`
in phase 2. -/
theorem c3_two_phase_read (timeout quietTimeout writeTime : Nat) (evs : List ReadEv) :
    (∀ e : ReadErr, doConnInternal (some e) timeout quietTimeout writeTime evs
        = some (some e, [], []))
    ∧ (termIdx evs = none →
        doConnInternal none timeout quietTimeout writeTime evs = none)
    ∧ (∀ k, termIdx evs = some k →
        ∃ ev e, evs.get? k = some ev ∧ ev.err = some e ∧ ev.chunk = [] ∧
          doConnInternal none timeout quietTimeout writeTime evs
            = some (specOutcome e (receivedBy evs k),
                gatherRaw evs k,
                deadlinesSpec (if quietTimeout = 0 then defaultQuietTimeout else quietTimeout)
                  (writeTime + timeout) false evs k)) := by
  refine ⟨fun e => rfl, ?_, ?_⟩
  · intro hk
    show readLoop _ _ false [] [] evs = none
    exact (readLoop_spec _ _ evs false [] []).1 hk
  · intro k hk
    obtain ⟨ev, e, h1, h2, h3, h4⟩ := (readLoop_spec
      (if quietTimeout = 0 then defaultQuietTimeout else quietTimeout)
      (writeTime + timeout) evs false [] []).2 k hk
    refine ⟨ev, e, h1, h2, h3, ?_⟩
    show readLoop _ _ false [] [] evs = _
    rw [h4]
    simp

theorem c3_two_phase_read_witness :
    doConnInternal none 100 10 0
        [⟨5, ("HTTP/1.1 200 OK\r\n\r\nok").toList, none⟩,
         ⟨9, [], some ⟨true, false, []⟩⟩]
      = some (none, ("HTTP/1.1 200 OK\r\n\r\nok").toList, [100, 19]) := by
  obtain ⟨-, -, h3⟩ := c3_two_phase_read 100 10 0
    [⟨5, ("HTTP/1.1 200 OK\r\n\r\nok").toList, none⟩,
     ⟨9, [], some ⟨true, false, []⟩⟩]
  obtain ⟨ev, e, h1, h2, h4, h5⟩ := h3 1 (by decide)
  rw [h5]
  have hev : ev = ⟨9, [], some ⟨true, false, []⟩⟩ := by
    rw [show ([⟨5, ("HTTP/1.1 200 OK\r\n\r\nok").toList, none⟩,
        ⟨9, [], some ⟨true, false, []⟩⟩] : List ReadEv).get? 1
        = some ⟨9, [], some ⟨true, false, []⟩⟩ from rfl] at h1
    exact (Option.some.injEq _ _).mp h1.symm
  rw [hev] at h2
  have he : e = ⟨true, false, []⟩ := by
    simp only [Option.some.injEq] at h2
    exact h2.symm
  rw [he]
  decide
